import Mathlib

/- Shallow embedding of the Petri-net and event-log dictionary codecs of
the `rust_bridge_pm_py` package (files `petri_net.py` and `event_log.py`),
with proofs about their round-trip and error behaviour.

Python dictionaries are modelled as association lists; a dictionary key that
may be absent becomes an outer `Option` (with `none` meaning the key is
missing), and a JSON `null` value becomes an inner `Option`.  Python
exceptions become `Except` errors whose constructors are named after the
specification's error taxonomy. -/

namespace RustBridgePM

/- Event log model, from `event_log.py`. -/

def ACTIVITY_NAME : String := "concept:name"

def TRACE_ID_NAME : String := "case:concept:name"

structure Event where
  attributes : List (String × String)
deriving DecidableEq

/- Dictionary form of an `Event`: `{"attributes": {...}}`; the `attributes`
key may be absent when decoding (`d.get("attributes", dict())`). -/
structure EventDict where
  attributes : Option (List (String × String))
deriving DecidableEq

def Event.from_activity (activity : String) : Event :=
  { attributes := [(ACTIVITY_NAME, activity)] }

def Event.from_dict (d : EventDict) : Event :=
  { attributes := d.attributes.getD [] }

def Event.to_dict (e : Event) : EventDict :=
  { attributes := some e.attributes }

structure Trace where
  attributes : List (String × String)
  events : List Event
deriving DecidableEq

structure TraceDict where
  attributes : Option (List (String × String))
  events : Option (List EventDict)
deriving DecidableEq

def Trace.from_traceid_events (trace_id : String) (events : List Event) : Trace :=
  { attributes := [(TRACE_ID_NAME, trace_id)], events := events }

def Trace.from_dict (d : TraceDict) : Trace :=
  { attributes := d.attributes.getD [],
    events := (d.events.getD []).map Event.from_dict }

def Trace.to_dict (t : Trace) : TraceDict :=
  { events := some (t.events.map Event.to_dict),
    attributes := some t.attributes }

structure EventLog where
  attributes : List (String × String)
  traces : List Trace
deriving DecidableEq

structure EventLogDict where
  attributes : Option (List (String × String))
  traces : Option (List TraceDict)
deriving DecidableEq

def EventLog.from_count (num_traces num_acts : Nat) : EventLog :=
  { attributes := [("name", "Test EventLog created in Python")],
    traces := (List.range num_traces).map (fun i =>
      Trace.from_traceid_events ("Trace " ++ toString i)
        ((List.range num_acts).map (fun j =>
          Event.from_activity ("Activity " ++ toString j)))) }

def EventLog.from_dict (d : EventLogDict) : EventLog :=
  { attributes := d.attributes.getD [],
    traces := (d.traces.getD []).map Trace.from_dict }

def EventLog.to_dict (l : EventLog) : EventLogDict :=
  { traces := some (l.traces.map Trace.to_dict),
    attributes := some l.attributes }

lemma event_from_dict_to_dict (e : Event) : Event.from_dict e.to_dict = e := rfl

lemma trace_from_dict_to_dict (t : Trace) : Trace.from_dict t.to_dict = t := by
  cases t with
  | mk attrs evs =>
    simp [Trace.to_dict, Trace.from_dict, List.map_map, Function.comp_def,
      event_from_dict_to_dict]

/-- C8: for every event log, decoding the dictionary produced by encoding it
yields a structurally equal log, with trace order and event order preserved
exactly (this includes logs with zero traces, traces with zero events and
empty attribute maps). -/
theorem c8_event_log_roundtrip (l : EventLog) :
    EventLog.from_dict l.to_dict = l := by
  cases l with
  | mk attrs trs =>
    simp [EventLog.to_dict, EventLog.from_dict, List.map_map, Function.comp_def,
      trace_from_dict_to_dict]

/-- C9: the synthetic-log builder with 3 traces of 2 events each yields
traces whose reserved trace-id attribute reads "Trace 0", "Trace 1",
"Trace 2" in order, each with events whose reserved activity attribute
reads "Activity 0", "Activity 1" in order, and a log attribute map with a
"name" entry. -/
theorem c9_from_count_3_2 :
    ((EventLog.from_count 3 2).traces.map
        (fun t => t.attributes.lookup TRACE_ID_NAME)
      = [some "Trace 0", some "Trace 1", some "Trace 2"])
    ∧ ((EventLog.from_count 3 2).traces.map
          (fun t => t.events.map (fun e => e.attributes.lookup ACTIVITY_NAME))
        = [[some "Activity 0", some "Activity 1"],
           [some "Activity 0", some "Activity 1"],
           [some "Activity 0", some "Activity 1"]])
    ∧ (((EventLog.from_count 3 2).attributes.lookup "name").isSome = true) := by
  decide

/- Petri net codec, from `petri_net.py`.

Python object identity (`id(p)`) is modelled by a `pid : Nat` field carried
by every `Place` and `Transition` instance; the dictionaries keyed by
`id(...)` become association lists keyed by these numbers.  The stream of
`str(uuid.uuid4())` draws made during one encode call is modelled by a
function `gen : Nat → String` giving the n-th draw of the call. -/

/- Python dictionary write `d[k] = v`: replace the binding in place when the
key is already present, else append it (insertion order is preserved). -/
def dictGet {κ α : Type} [DecidableEq κ] (d : List (κ × α)) (k : κ) : Option α :=
  match d with
  | [] => none
  | (k2, v) :: rest => if k2 = k then some v else dictGet rest k

/- Python dictionary write `d[k] = v`: replace the binding in place when the
key is already present, else append it (insertion order is preserved). -/
def dictInsert {κ α : Type} [DecidableEq κ]
    (d : List (κ × α)) (k : κ) (v : α) : List (κ × α) :=
  if (dictGet d k).isSome then
    d.map (fun kv => if kv.1 = k then (k, v) else kv)
  else d ++ [(k, v)]

structure Place where
  pid : Nat
  name : String
deriving DecidableEq

structure Transition where
  pid : Nat
  name : String
  label : Option String
deriving DecidableEq

inductive Node where
  | place (p : Place)
  | transition (t : Transition)
deriving DecidableEq

def Node.pid : Node → Nat
  | .place p => p.pid
  | .transition t => t.pid

def Node.isPlace : Node → Bool
  | .place _ => true
  | .transition _ => false

structure Arc where
  source : Node
  target : Node
  weight : Nat
deriving DecidableEq

/- The `(direction_tag, weight)` view of an arc used by the isomorphism
statement; the tag is the string `petrinet_to_dict` computes from the
runtime type of the arc's source. -/
def Arc.dirTag (a : Arc) : String :=
  if a.source.isPlace then "PlaceTransition" else "TransitionPlace"

structure PetriNet where
  places : List Place
  transitions : List Transition
  arcs : List Arc
deriving DecidableEq

/- A pm4py `Marking` restricted to what the codec uses: a dictionary from
`Place` instances to token counts. -/
abbrev Marking : Type := List (Place × Nat)

/- Wire-side entry types. -/

structure PlaceEntry where
  id : String
deriving DecidableEq

structure TransitionEntry where
  id : String
  label : Option String
deriving DecidableEq

structure FromTo where
  type : String
  nodes : String × String
deriving DecidableEq

structure ArcEntry where
  from_to : FromTo
  weight : Nat
deriving DecidableEq

/- The dictionary consumed by `dict_to_petrinet`.  An outer `none` models a
missing key (Python raises `KeyError` there), an inner `none` a JSON null. -/
structure NetDict where
  places : Option (List (String × PlaceEntry))
  transitions : Option (List (String × TransitionEntry))
  arcs : Option (List ArcEntry)
  initial_marking : Option (Option (List (String × Nat)))
  final_markings : Option (Option (List (List (String × Nat))))
deriving DecidableEq

/- The dictionary produced by `petrinet_to_dict`: every key is present. -/
structure EncDict where
  places : List (String × PlaceEntry)
  transitions : List (String × TransitionEntry)
  arcs : List ArcEntry
  initial_marking : Option (List (String × Nat))
  final_markings : Option (List (List (String × Nat)))
deriving DecidableEq

def EncDict.toNetDict (e : EncDict) : NetDict :=
  { places := some e.places, transitions := some e.transitions,
    arcs := some e.arcs, initial_marking := some e.initial_marking,
    final_markings := some e.final_markings }

/- Failure kinds of `dict_to_petrinet`, named after the specification's
error taxonomy.  `SchemaViolation k` is the `KeyError` raised by
`net_dict[k]` on a missing top-level key; `MalformedGraph` is the failure of
`add_arc_from_to` when an endpoint lookup returned `None`;
`UnknownPlaceReference k` is the `KeyError` raised by `places[place_id]`
while building a marking; `IndexOutOfRange` is the `IndexError` raised by
`net_dict["final_markings"][0]` on an empty list. -/
inductive DecodeError where
  | SchemaViolation (key : String)
  | MalformedGraph
  | UnknownPlaceReference (id : String)
  | IndexOutOfRange
deriving DecidableEq

/- Failure kind of `petrinet_to_dict`: the `KeyError` raised by
`pyid_to_uuid[id(x)]` when an arc or marking references an object that is
not a node of the net. -/
inductive EncodeError where
  | KeyError (pid : Nat)
deriving DecidableEq

def decodeRequired {α : Type} (f : Option α) (key : String) :
    Except DecodeError α :=
  match f with
  | none => .error (.SchemaViolation key)
  | some v => .ok v

/- `{p["id"]: PetriNet.Place(p["id"]) for p in net_dict["places"].values()}`:
iterate the values, create a fresh object (fresh pid from the counter `c`)
per element, key the lookup by the entry's own id field. -/
def buildPlaces (c : Nat) : List PlaceEntry → List (String × Place) → List (String × Place)
  | [], acc => acc
  | e :: rest, acc => buildPlaces (c + 1) rest (dictInsert acc e.id ⟨c, e.id⟩)

/- The transitions comprehension: `PetriNet.Transition(t["id"], t["label"])`. -/
def buildTransitions (c : Nat) : List TransitionEntry → List (String × Transition) → List (String × Transition)
  | [], acc => acc
  | e :: rest, acc => buildTransitions (c + 1) rest (dictInsert acc e.id ⟨c, e.id, e.label⟩)

/- `get_arc_for`: resolve both endpoints with `.get` in the map selected by
the `type` tag; `add_arc_from_to` then dereferences both, so a `None` on
either side aborts decoding (`MalformedGraph`). -/
def get_arc_for (places : List (String × Place))
    (transitions : List (String × Transition)) (a : ArcEntry) :
    Except DecodeError Arc :=
  let fr : Option Node :=
    if a.from_to.type = "PlaceTransition" then
      (dictGet places a.from_to.nodes.1).map Node.place
    else
      (dictGet transitions a.from_to.nodes.1).map Node.transition
  let tgt : Option Node :=
    if a.from_to.type = "PlaceTransition" then
      (dictGet transitions a.from_to.nodes.2).map Node.transition
    else
      (dictGet places a.from_to.nodes.2).map Node.place
  match fr, tgt with
  | some f, some t => .ok { source := f, target := t, weight := a.weight }
  | _, _ => .error .MalformedGraph

/- The arcs list comprehension: sequential, aborts at the first failure. -/
def buildArcs (places : List (String × Place))
    (transitions : List (String × Transition)) :
    List ArcEntry → Except DecodeError (List Arc)
  | [] => .ok []
  | a :: rest => do
    let arc ← get_arc_for places transitions a
    let arcs ← buildArcs places transitions rest
    .ok (arc :: arcs)

/- `for place_id in m: mk[places[place_id]] = m[place_id]`: `places[...]`
raises `KeyError` on an unknown place id. -/
def buildMarking (places : List (String × Place)) :
    List (String × Nat) → Marking → Except DecodeError Marking
  | [], acc => .ok acc
  | (k, n) :: rest, acc =>
    match dictGet places k with
    | none => .error (.UnknownPlaceReference k)
    | some p => buildMarking places rest (dictInsert acc p n)

structure DecodeResult where
  net : PetriNet
  im : Option Marking
  fm : Option Marking
  warned : Bool
deriving DecidableEq

def dict_to_petrinet (d : NetDict) : Except DecodeError DecodeResult := do
  let placeEntries ← decodeRequired d.places "places"
  let transitionEntries ← decodeRequired d.transitions "transitions"
  let places := buildPlaces 0 (placeEntries.map Prod.snd) []
  let transitions :=
    buildTransitions placeEntries.length (transitionEntries.map Prod.snd) []
  let arcEntries ← decodeRequired d.arcs "arcs"
  let arcs ← buildArcs places transitions arcEntries
  let net : PetriNet :=
    { places := places.map Prod.snd, transitions := transitions.map Prod.snd,
      arcs := arcs }
  let imField ← decodeRequired d.initial_marking "initial_marking"
  let im ← match imField with
    | none => pure (none : Option Marking)
    | some m => do
      let mk ← buildMarking places m []
      pure (some mk)
  let fmField ← decodeRequired d.final_markings "final_markings"
  match fmField with
  | none => pure { net := net, im := im, fm := none, warned := false }
  | some fms =>
    let warned := decide (fms.length > 1)
    match fms with
    | [] => .error .IndexOutOfRange
    | first :: _ => do
      let mk ← buildMarking places first []
      pure { net := net, im := im, fm := some mk, warned := warned }

/- `petrinet_to_dict`.  The first loop draws one uuid per place, recording
`pyid_to_uuid[id(p)] = pid` and `places[pid] = {"id": pid}`; the state is
(uuid counter, pyid_to_uuid, places dict). -/
def encodePlacesLoop (gen : Nat → String) :
    List Place → Nat × List (Nat × String) × List (String × PlaceEntry) →
    Nat × List (Nat × String) × List (String × PlaceEntry)
  | [], st => st
  | p :: rest, (c, m, d) =>
    encodePlacesLoop gen rest
      (c + 1, dictInsert m p.pid (gen c), dictInsert d (gen c) ⟨gen c⟩)

/- The second loop: one uuid per transition, recording
`transitions[tid] = {"id": tid, "label": t.label}`. -/
def encodeTransitionsLoop (gen : Nat → String) :
    List Transition → Nat × List (Nat × String) × List (String × TransitionEntry) →
    Nat × List (Nat × String) × List (String × TransitionEntry)
  | [], st => st
  | t :: rest, (c, m, d) =>
    encodeTransitionsLoop gen rest
      (c + 1, dictInsert m t.pid (gen c), dictInsert d (gen c) ⟨gen c, t.label⟩)

def pyidLookup (m : List (Nat × String)) (pid : Nat) : Except EncodeError String :=
  match dictGet m pid with
  | none => .error (.KeyError pid)
  | some s => .ok s

/- The arcs list comprehension of `petrinet_to_dict`:
`pyid_to_uuid[id(arc.source)]` raises `KeyError` when the endpoint is not a
node of the net; the tag comes from `type(arc.source) == PetriNet.Place`. -/
def encodeArcs (m : List (Nat × String)) :
    List Arc → Except EncodeError (List ArcEntry)
  | [] => .ok []
  | a :: rest => do
    let s ← pyidLookup m a.source.pid
    let t ← pyidLookup m a.target.pid
    let entries ← encodeArcs m rest
    .ok ({ from_to :=
             { type := if a.source.isPlace then "PlaceTransition"
                       else "TransitionPlace",
               nodes := (s, t) },
           weight := a.weight } :: entries)

/- `for p, n in marking.items(): out[pyid_to_uuid[id(p)]] = n`. -/
def encodeMarking (m : List (Nat × String)) :
    Marking → List (String × Nat) → Except EncodeError (List (String × Nat))
  | [], acc => .ok acc
  | (p, n) :: rest, acc => do
    let s ← pyidLookup m p.pid
    encodeMarking m rest (dictInsert acc s n)

def encodeFinalMarkings (m : List (Nat × String)) :
    List Marking → Except EncodeError (List (List (String × Nat)))
  | [] => .ok []
  | fm :: rest => do
    let d ← encodeMarking m fm []
    let ds ← encodeFinalMarkings m rest
    .ok (d :: ds)

def petrinet_to_dict (gen : Nat → String) (net : PetriNet)
    (im : Option Marking) (fms : Option (List Marking)) :
    Except EncodeError EncDict := do
  let pst := encodePlacesLoop gen net.places (0, [], [])
  let tst := encodeTransitionsLoop gen net.transitions (pst.1, pst.2.1, [])
  let pyid_to_uuid := tst.2.1
  let arcs ← encodeArcs pyid_to_uuid net.arcs
  let initial_marking ← match im with
    | none => pure (none : Option (List (String × Nat)))
    | some mk => do
      let d ← encodeMarking pyid_to_uuid mk []
      pure (some d)
  let final_markings ← match fms with
    | none => pure (none : Option (List (List (String × Nat))))
    | some l => do
      let ds ← encodeFinalMarkings pyid_to_uuid l
      pure (some ds)
  .ok { places := pst.2.2, transitions := tst.2.2, arcs := arcs,
        initial_marking := initial_marking, final_markings := final_markings }

/- Basic facts about the dictionary model. -/

lemma dictGet_none_iff {κ α : Type} [DecidableEq κ] (d : List (κ × α)) (k : κ) :
    dictGet d k = none ↔ k ∉ d.map Prod.fst := by
  induction d with
  | nil => simp [dictGet]
  | cons kv rest ih =>
    obtain ⟨k2, v⟩ := kv
    by_cases h : k2 = k
    · subst h
      simp [dictGet]
    · simp [dictGet, h, ih, Ne.symm h]

lemma dictGet_isSome_iff {κ α : Type} [DecidableEq κ] (d : List (κ × α)) (k : κ) :
    (dictGet d k).isSome = true ↔ k ∈ d.map Prod.fst := by
  rw [← Decidable.not_iff_not, ← dictGet_none_iff d k]
  cases dictGet d k <;> simp

lemma dictGet_mem {κ α : Type} [DecidableEq κ] {d : List (κ × α)} {k : κ} {v : α}
    (h : dictGet d k = some v) : (k, v) ∈ d := by
  induction d with
  | nil => simp [dictGet] at h
  | cons kv rest ih =>
    obtain ⟨k2, v2⟩ := kv
    by_cases hk : k2 = k
    · subst hk
      simp [dictGet] at h
      simp [h]
    · simp [dictGet, hk] at h
      exact List.mem_cons_of_mem _ (ih h)

lemma dictGet_append_left {κ α : Type} [DecidableEq κ]
    {a : List (κ × α)} (b : List (κ × α)) {k : κ} {v : α}
    (h : dictGet a k = some v) : dictGet (a ++ b) k = some v := by
  induction a with
  | nil => simp [dictGet] at h
  | cons kv rest ih =>
    obtain ⟨k2, v2⟩ := kv
    by_cases hk : k2 = k
    · subst hk
      simp [dictGet] at h ⊢
      exact h
    · simp [dictGet, hk] at h ⊢
      exact ih h

lemma dictGet_append_right {κ α : Type} [DecidableEq κ]
    {a : List (κ × α)} (b : List (κ × α)) {k : κ}
    (h : dictGet a k = none) : dictGet (a ++ b) k = dictGet b k := by
  induction a with
  | nil => simp
  | cons kv rest ih =>
    obtain ⟨k2, v2⟩ := kv
    by_cases hk : k2 = k
    · simp [dictGet, hk] at h
    · simp [dictGet, hk] at h ⊢
      exact ih h

lemma dictInsert_of_not_mem {κ α : Type} [DecidableEq κ]
    {d : List (κ × α)} {k : κ} (v : α) (h : k ∉ d.map Prod.fst) :
    dictInsert d k v = d ++ [(k, v)] := by
  have hn : dictGet d k = none := (dictGet_none_iff d k).2 h
  simp [dictInsert, hn]

lemma dictGet_singleton_ne {κ α : Type} [DecidableEq κ]
    {k k2 : κ} (v : α) (h : k2 ≠ k) : dictGet [(k2, v)] k = none := by
  simp [dictGet, h]

/- C5: a missing required key among `places`, `transitions`, `arcs` aborts
decoding with the corresponding `SchemaViolation` and no result. -/

/-- C5: decoding a dictionary from which the required key `places`,
`transitions` or `arcs` is missing fails with `SchemaViolation` naming that
key, returning no result. -/
theorem c5_missing_required_key (d : NetDict) :
    (d.places = none →
      dict_to_petrinet d = .error (.SchemaViolation "places"))
    ∧ (∀ pe, d.places = some pe → d.transitions = none →
      dict_to_petrinet d = .error (.SchemaViolation "transitions"))
    ∧ (∀ pe te, d.places = some pe → d.transitions = some te →
      d.arcs = none →
      dict_to_petrinet d = .error (.SchemaViolation "arcs")) := by
  obtain ⟨p, t, a, i, f⟩ := d
  refine ⟨?_, ?_, ?_⟩
  · rintro rfl
    rfl
  · rintro pe rfl rfl
    rfl
  · rintro pe te rfl rfl rfl
    rfl

/-- C5 witness: the three missing-key failures at concrete dictionaries. -/
theorem c5_missing_required_key_witness :
    dict_to_petrinet ⟨none, some [], some [], some none, some none⟩
      = .error (.SchemaViolation "places")
    ∧ dict_to_petrinet ⟨some [], none, some [], some none, some none⟩
      = .error (.SchemaViolation "transitions")
    ∧ dict_to_petrinet ⟨some [], some [], none, some none, some none⟩
      = .error (.SchemaViolation "arcs") :=
  ⟨(c5_missing_required_key _).1 rfl,
   (c5_missing_required_key _).2.1 [] rfl rfl,
   (c5_missing_required_key _).2.2 [] [] rfl rfl rfl⟩

/- Stage-level facts about `dict_to_petrinet`. -/

lemma exceptBind_ok {ε α β : Type} (a : α) (f : α → Except ε β) :
    (Except.ok a >>= f) = f a := rfl

lemma exceptBind_error {ε α β : Type} (e : ε) (f : α → Except ε β) :
    ((Except.error e : Except ε α) >>= f) = .error e := rfl

/- An arc entry resolves exactly when both endpoint ids are found in the
maps selected by its direction tag. -/
def arcResolvable (places : List (String × Place))
    (transitions : List (String × Transition)) (a : ArcEntry) : Bool :=
  if a.from_to.type = "PlaceTransition" then
    (dictGet places a.from_to.nodes.1).isSome
    && (dictGet transitions a.from_to.nodes.2).isSome
  else
    (dictGet transitions a.from_to.nodes.1).isSome
    && (dictGet places a.from_to.nodes.2).isSome

lemma get_arc_for_ok_of_resolvable {pl : List (String × Place)}
    {tl : List (String × Transition)} {a : ArcEntry}
    (h : arcResolvable pl tl a = true) :
    ∃ arc, get_arc_for pl tl a = .ok arc := by
  by_cases htag : a.from_to.type = "PlaceTransition" <;>
    rcases hfr : dictGet pl a.from_to.nodes.1 with _ | p <;>
      rcases hfr2 : dictGet tl a.from_to.nodes.1 with _ | t1 <;>
        rcases htg : dictGet tl a.from_to.nodes.2 with _ | t <;>
          rcases htg2 : dictGet pl a.from_to.nodes.2 with _ | p2 <;>
            simp_all [arcResolvable, get_arc_for]

lemma get_arc_for_error_of_not_resolvable {pl : List (String × Place)}
    {tl : List (String × Transition)} {a : ArcEntry}
    (h : arcResolvable pl tl a = false) :
    get_arc_for pl tl a = .error .MalformedGraph := by
  by_cases htag : a.from_to.type = "PlaceTransition" <;>
    rcases hfr : dictGet pl a.from_to.nodes.1 with _ | p <;>
      rcases hfr2 : dictGet tl a.from_to.nodes.1 with _ | t1 <;>
        rcases htg : dictGet tl a.from_to.nodes.2 with _ | t <;>
          rcases htg2 : dictGet pl a.from_to.nodes.2 with _ | p2 <;>
            simp_all [arcResolvable, get_arc_for]

lemma buildArcs_ok {pl : List (String × Place)}
    {tl : List (String × Transition)} {ae : List ArcEntry}
    (h : ∀ a ∈ ae, arcResolvable pl tl a = true) :
    ∃ arcs, buildArcs pl tl ae = .ok arcs := by
  induction ae with
  | nil => exact ⟨[], rfl⟩
  | cons a rest ih =>
    obtain ⟨arc, harc⟩ := get_arc_for_ok_of_resolvable (h a (by simp))
    obtain ⟨arcs, harcs⟩ := ih (fun a ha => h a (by simp [ha]))
    exact ⟨arc :: arcs, by simp [buildArcs, harc, harcs, exceptBind_ok]⟩

lemma buildArcs_error {pl : List (String × Place)}
    {tl : List (String × Transition)} {ae : List ArcEntry}
    (h : ∃ a ∈ ae, arcResolvable pl tl a = false) :
    buildArcs pl tl ae = .error .MalformedGraph := by
  induction ae with
  | nil => simp at h
  | cons a rest ih =>
    rcases ha : arcResolvable pl tl a with _ | _
    · simp [buildArcs, get_arc_for_error_of_not_resolvable ha, exceptBind_error]
    · obtain ⟨arc, harc⟩ := get_arc_for_ok_of_resolvable ha
      have hrest : ∃ b ∈ rest, arcResolvable pl tl b = false := by
        obtain ⟨b, hb, hbn⟩ := h
        rcases List.mem_cons.1 hb with rfl | hb2
        · rw [ha] at hbn
          cases hbn
        · exact ⟨b, hb2, hbn⟩
      simp [buildArcs, harc, ih hrest, exceptBind_ok, exceptBind_error]

lemma buildMarking_ok {pl : List (String × Place)} {m : List (String × Nat)}
    (h : ∀ kn ∈ m, (dictGet pl kn.1).isSome = true) :
    ∀ acc, ∃ l, buildMarking pl m acc = .ok l := by
  induction m with
  | nil => exact fun acc => ⟨acc, rfl⟩
  | cons kn rest ih =>
    intro acc
    obtain ⟨k, n⟩ := kn
    obtain ⟨p, hp⟩ := Option.isSome_iff_exists.1 (h (k, n) (by simp))
    obtain ⟨l, hl⟩ := ih (fun kn hkn => h kn (by simp [hkn])) (dictInsert acc p n)
    exact ⟨l, by simp [buildMarking, hp, hl]⟩

lemma buildMarking_error {pl : List (String × Place)} {m : List (String × Nat)}
    (h : ∃ kn ∈ m, dictGet pl kn.1 = none) :
    ∀ acc, ∃ k, buildMarking pl m acc = .error (.UnknownPlaceReference k) := by
  induction m with
  | nil => simp at h
  | cons kn rest ih =>
    intro acc
    obtain ⟨k, n⟩ := kn
    rcases hp : dictGet pl k with _ | p
    · exact ⟨k, by simp [buildMarking, hp]⟩
    · have hrest : ∃ kn ∈ rest, dictGet pl kn.1 = none := by
        obtain ⟨b, hb, hbn⟩ := h
        rcases List.mem_cons.1 hb with rfl | hb2
        · simp at hbn
          rw [hbn] at hp
          cases hp
        · exact ⟨b, hb2, hbn⟩
      obtain ⟨k2, hk2⟩ := ih hrest (dictInsert acc p n)
      exact ⟨k2, by simp [buildMarking, hp, hk2]⟩

/- The initial-marking stage succeeds: either a null value, or a marking
whose construction succeeds. -/
def imStageOk (places : List (String × Place)) :
    Option (List (String × Nat)) → Prop
  | none => True
  | some m => ∃ mk, buildMarking places m [] = .ok mk

/- The decode-side lookup dictionaries of a `NetDict` whose `places` and
`transitions` entries are the given lists. -/
def placesLookup (pe : List (String × PlaceEntry)) : List (String × Place) :=
  buildPlaces 0 (pe.map Prod.snd) []

def transitionsLookup (pe : List (String × PlaceEntry))
    (te : List (String × TransitionEntry)) : List (String × Transition) :=
  buildTransitions pe.length (te.map Prod.snd) []

/-- C10: the keys `initial_marking` and `final_markings` are required: a
dictionary lacking either one (even with valid `places`, `transitions` and
`arcs` entries) makes decoding fail with the missing-key error instead of
treating the absent field as null. -/
theorem c10_marking_keys_required (d : NetDict)
    (pe : List (String × PlaceEntry)) (te : List (String × TransitionEntry))
    (ae : List ArcEntry)
    (hp : d.places = some pe) (ht : d.transitions = some te)
    (ha : d.arcs = some ae)
    (harcs : ∀ a ∈ ae,
      arcResolvable (placesLookup pe) (transitionsLookup pe te) a = true) :
    (d.initial_marking = none →
      dict_to_petrinet d = .error (.SchemaViolation "initial_marking"))
    ∧ (∀ imf, d.initial_marking = some imf →
        imStageOk (placesLookup pe) imf → d.final_markings = none →
        dict_to_petrinet d = .error (.SchemaViolation "final_markings")) := by
  obtain ⟨arcs, harcsOk⟩ := buildArcs_ok harcs
  obtain ⟨dp, dt, da, di, df⟩ := d
  simp only [NetDict.mk.injEq] at hp ht ha
  cases hp
  cases ht
  cases ha
  constructor
  · rintro rfl
    simp [dict_to_petrinet, decodeRequired, placesLookup, transitionsLookup,
      List.map_map] at harcsOk ⊢
    simp [harcsOk, exceptBind_ok, exceptBind_error]
  · rintro imf rfl him rfl
    simp [dict_to_petrinet, decodeRequired, placesLookup, transitionsLookup,
      List.map_map] at harcsOk him ⊢
    cases imf with
    | none =>
      simp [harcsOk, exceptBind_ok, exceptBind_error]
    | some m =>
      obtain ⟨mk, hmk⟩ := him
      simp [harcsOk, hmk, exceptBind_ok, exceptBind_error]

/-- C10 witness: a dictionary with one place, no transitions or arcs, and
the `initial_marking` key (respectively `final_markings`) absent. -/
theorem c10_marking_keys_required_witness :
    dict_to_petrinet ⟨some [("p1", ⟨"p1"⟩)], some [], some [], none, some none⟩
      = .error (.SchemaViolation "initial_marking")
    ∧ dict_to_petrinet ⟨some [("p1", ⟨"p1"⟩)], some [], some [], some none, none⟩
      = .error (.SchemaViolation "final_markings") :=
  ⟨(c10_marking_keys_required _ [("p1", ⟨"p1"⟩)] [] [] rfl rfl rfl
      (by intro a ha; cases ha)).1 rfl,
   (c10_marking_keys_required _ [("p1", ⟨"p1"⟩)] [] [] rfl rfl rfl
      (by intro a ha; cases ha)).2 none rfl trivial rfl⟩

/-- C4: an arc entry whose endpoint id is absent from the map selected by
its direction tag makes decoding fail with `MalformedGraph`, returning no
partial graph. -/
theorem c4_malformed_arc (d : NetDict)
    (pe : List (String × PlaceEntry)) (te : List (String × TransitionEntry))
    (ae : List ArcEntry)
    (hp : d.places = some pe) (ht : d.transitions = some te)
    (ha : d.arcs = some ae)
    (hbad : ∃ a ∈ ae,
      arcResolvable (placesLookup pe) (transitionsLookup pe te) a = false) :
    dict_to_petrinet d = .error .MalformedGraph := by
  have herr := buildArcs_error hbad
  obtain ⟨dp, dt, da, di, df⟩ := d
  simp only [NetDict.mk.injEq] at hp ht ha
  cases hp
  cases ht
  cases ha
  simp [dict_to_petrinet, decodeRequired, placesLookup, transitionsLookup,
    List.map_map] at herr ⊢
  simp [herr, exceptBind_ok, exceptBind_error]

/-- C4 witness: one place `p1`, no transitions, and one arc whose target id
`t-missing` is absent from the transitions map. -/
theorem c4_malformed_arc_witness :
    dict_to_petrinet ⟨some [("p1", ⟨"p1"⟩)], some [],
        some [⟨⟨"PlaceTransition", ("p1", "t-missing")⟩, 1⟩],
        some none, some none⟩
      = .error .MalformedGraph :=
  c4_malformed_arc _ [("p1", ⟨"p1"⟩)] []
    [⟨⟨"PlaceTransition", ("p1", "t-missing")⟩, 1⟩] rfl rfl rfl
    ⟨⟨⟨"PlaceTransition", ("p1", "t-missing")⟩, 1⟩, by simp, by decide⟩

/- The decoded marking viewed by place name.  Decoded places carry their
dictionary id in the `name` field, so this projects a decoded marking back
to the id-to-count mapping it came from. -/
def markingByName (m : Marking) : List (String × Nat) :=
  m.map (fun pn => (pn.1.name, pn.2))

/- Every binding of a decode-side place lookup maps an id to a place whose
`name` field is that id. -/
def namesMatch (pl : List (String × Place)) : Prop :=
  ∀ kv ∈ pl, (kv.2 : Place).name = kv.1

lemma namesMatch_dictInsert {acc : List (String × Place)} {k : String}
    {v : Place} (h : namesMatch acc) (hv : v.name = k) :
    namesMatch (dictInsert acc k v) := by
  intro kv hkv
  unfold dictInsert at hkv
  split at hkv
  · rcases List.mem_map.1 hkv with ⟨kv2, hkv2, heq⟩
    by_cases he : kv2.1 = k
    · rw [if_pos he] at heq
      rw [← heq]
      exact hv
    · rw [if_neg he] at heq
      rw [← heq]
      exact h kv2 hkv2
  · rcases List.mem_append.1 hkv with h2 | h2
    · exact h kv h2
    · simp at h2
      rw [h2]
      exact hv

lemma namesMatch_buildPlaces :
    ∀ (entries : List PlaceEntry) (c : Nat) (acc : List (String × Place)),
    namesMatch acc → namesMatch (buildPlaces c entries acc) := by
  intro entries
  induction entries with
  | nil => intro c acc h; exact h
  | cons e rest ih =>
    intro c acc h
    exact ih (c + 1) _ (namesMatch_dictInsert h rfl)

lemma namesMatch_placesLookup (pe : List (String × PlaceEntry)) :
    namesMatch (placesLookup pe) :=
  namesMatch_buildPlaces _ 0 [] (by intro kv hkv; cases hkv)

lemma buildMarking_exact {pl : List (String × Place)}
    (hnames : namesMatch pl) :
    ∀ (m : List (String × Nat)) (acc : Marking),
    (m.map Prod.fst).Nodup →
    (∀ kn ∈ m, (dictGet pl kn.1).isSome = true) →
    (∀ kn ∈ m, ∀ pn ∈ acc, (pn.1 : Place).name ≠ kn.1) →
    ∃ l, buildMarking pl m acc = .ok (acc ++ l) ∧ markingByName l = m := by
  intro m
  induction m with
  | nil =>
    intro acc _ _ _
    exact ⟨[], by simp [buildMarking, markingByName]⟩
  | cons kn rest ih =>
    intro acc hnodup hsome hfresh
    obtain ⟨k, n⟩ := kn
    obtain ⟨p, hp⟩ := Option.isSome_iff_exists.1 (hsome (k, n) (by simp))
    have hpname : p.name = k := hnames (k, p) (dictGet_mem hp)
    have hnotin : p ∉ acc.map Prod.fst := by
      intro hmem
      rcases List.mem_map.1 hmem with ⟨pn, hpn, heq⟩
      exact hfresh (k, n) (by simp) pn hpn (by rw [heq, hpname])
    have hnodup2 : (rest.map Prod.fst).Nodup :=
      (List.nodup_cons.1 (by simpa using hnodup)).2
    have hknotin : k ∉ rest.map Prod.fst :=
      (List.nodup_cons.1 (by simpa using hnodup)).1
    obtain ⟨l, hl, hlmap⟩ := ih (acc ++ [(p, n)]) hnodup2
      (fun kn2 hkn2 => hsome kn2 (by simp [hkn2]))
      (fun kn2 hkn2 pn hpn => by
        rcases List.mem_append.1 hpn with h2 | h2
        · exact hfresh kn2 (by simp [hkn2]) pn h2
        · simp at h2
          subst h2
          simp only [hpname]
          intro hkk
          exact hknotin (by rw [hkk]; exact List.mem_map_of_mem Prod.fst hkn2))
    refine ⟨(p, n) :: l, ?_, ?_⟩
    · rw [show buildMarking pl ((k, n) :: rest) acc
          = buildMarking pl rest (dictInsert acc p n) from by
            simp [buildMarking, hp],
        dictInsert_of_not_mem n hnotin, hl]
      simp
    · simp [markingByName] at hlmap ⊢
      exact ⟨hpname, hlmap⟩

/- The final-markings stage succeeds: either a null value or a non-empty
sequence whose first entry builds. -/
def fmStageOk (places : List (String × Place)) :
    Option (List (List (String × Nat))) → Prop
  | none => True
  | some [] => False
  | some (first :: _) => ∃ mk, buildMarking places first [] = .ok mk

/-- C6: with a non-null `initial_marking`, a key that is not a place id of
the reconstructed net makes decoding fail with `UnknownPlaceReference`;
when every key is a known place id, the decoded initial marking maps
exactly those places (by id) to the given counts. -/
theorem c6_initial_marking (d : NetDict)
    (pe : List (String × PlaceEntry)) (te : List (String × TransitionEntry))
    (ae : List ArcEntry) (m : List (String × Nat))
    (hp : d.places = some pe) (ht : d.transitions = some te)
    (ha : d.arcs = some ae)
    (harcs : ∀ a ∈ ae,
      arcResolvable (placesLookup pe) (transitionsLookup pe te) a = true)
    (him : d.initial_marking = some (some m)) :
    ((∃ kn ∈ m, dictGet (placesLookup pe) kn.1 = none) →
      ∃ k, dict_to_petrinet d = .error (.UnknownPlaceReference k))
    ∧ ((∀ kn ∈ m, (dictGet (placesLookup pe) kn.1).isSome = true) →
      (m.map Prod.fst).Nodup →
      ∀ fmf, d.final_markings = some fmf → fmStageOk (placesLookup pe) fmf →
      ∃ r imk, dict_to_petrinet d = .ok r ∧ r.im = some imk
        ∧ markingByName imk = m) := by
  obtain ⟨arcs, harcsOk⟩ := buildArcs_ok harcs
  obtain ⟨dp, dt, da, di, df⟩ := d
  simp only [NetDict.mk.injEq] at hp ht ha him
  cases hp
  cases ht
  cases ha
  cases him
  constructor
  · intro hbad
    obtain ⟨k, hk⟩ := buildMarking_error hbad []
    refine ⟨k, ?_⟩
    simp [dict_to_petrinet, decodeRequired, placesLookup, transitionsLookup,
      List.map_map] at harcsOk hk ⊢
    simp [harcsOk, hk, exceptBind_ok, exceptBind_error]
  · intro hsome hnodup fmf hfm hfmOk
    cases hfm
    obtain ⟨imk, himk, himkMap⟩ :=
      buildMarking_exact (namesMatch_placesLookup pe) m [] hnodup hsome
        (fun kn hkn pn hpn => by cases hpn)
    rw [List.nil_append] at himk
    cases fmf with
    | none =>
      have hdec : dict_to_petrinet ⟨some pe, some te, some ae,
          some (some m), some none⟩
          = .ok ⟨⟨(placesLookup pe).map Prod.snd,
                  (transitionsLookup pe te).map Prod.snd, arcs⟩,
                 some imk, none, false⟩ := by
        simp [dict_to_petrinet, decodeRequired, placesLookup, transitionsLookup,
          List.map_map] at harcsOk himk ⊢
        simp [harcsOk, himk, exceptBind_ok]
      exact ⟨_, imk, hdec, rfl, himkMap⟩
    | some fms =>
      cases fms with
      | nil => cases hfmOk
      | cons first rest =>
        obtain ⟨fmk, hfmk⟩ := hfmOk
        have hdec : dict_to_petrinet ⟨some pe, some te, some ae,
            some (some m), some (some (first :: rest))⟩
            = .ok ⟨⟨(placesLookup pe).map Prod.snd,
                    (transitionsLookup pe te).map Prod.snd, arcs⟩,
                   some imk, some fmk,
                   decide ((first :: rest).length > 1)⟩ := by
          simp [dict_to_petrinet, decodeRequired, placesLookup,
            transitionsLookup, List.map_map] at harcsOk himk hfmk ⊢
          simp [harcsOk, himk, hfmk, exceptBind_ok]
        exact ⟨_, imk, hdec, rfl, himkMap⟩

/-- C6 witness: with one place `p1`, an initial marking keyed by `p404`
fails with `UnknownPlaceReference`, while one keyed by `p1` decodes to the
marking assigning 2 tokens to `p1`. -/
theorem c6_initial_marking_witness :
    (∃ k, dict_to_petrinet ⟨some [("p1", ⟨"p1"⟩)], some [], some [],
        some (some [("p404", 1)]), some none⟩
      = .error (.UnknownPlaceReference k))
    ∧ (∃ r imk, dict_to_petrinet ⟨some [("p1", ⟨"p1"⟩)], some [], some [],
        some (some [("p1", 2)]), some none⟩
      = .ok r ∧ r.im = some imk ∧ markingByName imk = [("p1", 2)]) :=
  ⟨(c6_initial_marking _ [("p1", ⟨"p1"⟩)] [] [] [("p404", 1)]
      rfl rfl rfl (by simp) rfl).1
      ⟨("p404", 1), by simp, by decide⟩,
   (c6_initial_marking _ [("p1", ⟨"p1"⟩)] [] [] [("p1", 2)]
      rfl rfl rfl (by simp) rfl).2
      (by decide) (by decide) none rfl trivial⟩

/-- C7: a `final_markings` list of length at least two decodes successfully,
the resulting final marking is its first entry, and the non-fatal
multiple-final-markings warning is emitted. -/
theorem c7_multiple_final_markings (d : NetDict)
    (pe : List (String × PlaceEntry)) (te : List (String × TransitionEntry))
    (ae : List ArcEntry) (imf : Option (List (String × Nat)))
    (m1 : List (String × Nat)) (ms : List (List (String × Nat)))
    (hp : d.places = some pe) (ht : d.transitions = some te)
    (ha : d.arcs = some ae)
    (harcs : ∀ a ∈ ae,
      arcResolvable (placesLookup pe) (transitionsLookup pe te) a = true)
    (him : d.initial_marking = some imf)
    (himOk : imStageOk (placesLookup pe) imf)
    (hfm : d.final_markings = some (some (m1 :: ms)))
    (hms : ms ≠ [])
    (hm1 : ∀ kn ∈ m1, (dictGet (placesLookup pe) kn.1).isSome = true)
    (hm1nodup : (m1.map Prod.fst).Nodup) :
    ∃ r fmk, dict_to_petrinet d = .ok r ∧ r.warned = true
      ∧ r.fm = some fmk ∧ markingByName fmk = m1 := by
  obtain ⟨arcs, harcsOk⟩ := buildArcs_ok harcs
  obtain ⟨fmk, hfmk, hfmkMap⟩ :=
    buildMarking_exact (namesMatch_placesLookup pe) m1 [] hm1nodup hm1
      (fun kn hkn pn hpn => by cases hpn)
  rw [List.nil_append] at hfmk
  have hwarn : decide ((m1 :: ms).length > 1) = true := by
    cases ms with
    | nil => exact absurd rfl hms
    | cons a l => simp
  obtain ⟨dp, dt, da, di, df⟩ := d
  simp only [NetDict.mk.injEq] at hp ht ha him hfm
  cases hp
  cases ht
  cases ha
  cases him
  cases hfm
  cases imf with
  | none =>
    have hdec : dict_to_petrinet ⟨some pe, some te, some ae,
        some none, some (some (m1 :: ms))⟩
        = .ok ⟨⟨(placesLookup pe).map Prod.snd,
                (transitionsLookup pe te).map Prod.snd, arcs⟩,
               none, some fmk, decide ((m1 :: ms).length > 1)⟩ := by
      simp [dict_to_petrinet, decodeRequired, placesLookup,
        transitionsLookup, List.map_map] at harcsOk hfmk ⊢
      simp [harcsOk, hfmk, exceptBind_ok]
    exact ⟨_, fmk, hdec, hwarn, rfl, hfmkMap⟩
  | some m =>
    obtain ⟨imk, himk⟩ := himOk
    have hdec : dict_to_petrinet ⟨some pe, some te, some ae,
        some (some m), some (some (m1 :: ms))⟩
        = .ok ⟨⟨(placesLookup pe).map Prod.snd,
                (transitionsLookup pe te).map Prod.snd, arcs⟩,
               some imk, some fmk, decide ((m1 :: ms).length > 1)⟩ := by
      simp [dict_to_petrinet, decodeRequired, placesLookup,
        transitionsLookup, List.map_map] at harcsOk hfmk himk ⊢
      simp [harcsOk, hfmk, himk, exceptBind_ok]
    exact ⟨_, fmk, hdec, hwarn, rfl, hfmkMap⟩

/-- C7 witness: places `p1`, `p2` and `final_markings`
`[{"p1": 1}, {"p2": 1}]` decode with the warning flag set and the final
marking `{"p1": 1}`. -/
theorem c7_multiple_final_markings_witness :
    ∃ r fmk, dict_to_petrinet ⟨some [("p1", ⟨"p1"⟩), ("p2", ⟨"p2"⟩)],
        some [], some [], some none,
        some (some [[("p1", 1)], [("p2", 1)]])⟩
      = .ok r ∧ r.warned = true ∧ r.fm = some fmk
      ∧ markingByName fmk = [("p1", 1)] :=
  c7_multiple_final_markings _ [("p1", ⟨"p1"⟩), ("p2", ⟨"p2"⟩)] [] []
    none [("p1", 1)] [[("p2", 1)]] rfl rfl rfl (by simp) rfl trivial rfl
    (by simp) (by decide) (by decide)

/-- C3 counterexample: decoding a dictionary whose `final_markings` entry is
the present but empty list does not succeed with an empty marking; it fails
with the index error raised by `final_markings[0]`. -/
theorem c3_counterexample :
    dict_to_petrinet ⟨some [("p1", ⟨"p1"⟩)], some [], some [],
        some none, some (some [])⟩
      = .error .IndexOutOfRange := rfl

/-- C3 amended: a null `final_markings` decodes to no final marking, while a
present but empty `final_markings` list makes decoding fail with the index
error of `final_markings[0]` instead of producing an empty marking. -/
theorem c3_empty_final_markings (d : NetDict)
    (pe : List (String × PlaceEntry)) (te : List (String × TransitionEntry))
    (ae : List ArcEntry) (imf : Option (List (String × Nat)))
    (hp : d.places = some pe) (ht : d.transitions = some te)
    (ha : d.arcs = some ae)
    (harcs : ∀ a ∈ ae,
      arcResolvable (placesLookup pe) (transitionsLookup pe te) a = true)
    (him : d.initial_marking = some imf)
    (himOk : imStageOk (placesLookup pe) imf) :
    (d.final_markings = some none →
      ∃ r, dict_to_petrinet d = .ok r ∧ r.fm = none)
    ∧ (d.final_markings = some (some []) →
      dict_to_petrinet d = .error .IndexOutOfRange) := by
  obtain ⟨arcs, harcsOk⟩ := buildArcs_ok harcs
  obtain ⟨dp, dt, da, di, df⟩ := d
  simp only [NetDict.mk.injEq] at hp ht ha him
  cases hp
  cases ht
  cases ha
  cases him
  constructor
  · rintro rfl
    cases imf with
    | none =>
      have hdec : dict_to_petrinet ⟨some pe, some te, some ae,
          some none, some none⟩
          = .ok ⟨⟨(placesLookup pe).map Prod.snd,
                  (transitionsLookup pe te).map Prod.snd, arcs⟩,
                 none, none, false⟩ := by
        simp [dict_to_petrinet, decodeRequired, placesLookup,
          transitionsLookup, List.map_map] at harcsOk ⊢
        simp [harcsOk, exceptBind_ok]
      exact ⟨_, hdec, rfl⟩
    | some m =>
      obtain ⟨imk, himk⟩ := himOk
      have hdec : dict_to_petrinet ⟨some pe, some te, some ae,
          some (some m), some none⟩
          = .ok ⟨⟨(placesLookup pe).map Prod.snd,
                  (transitionsLookup pe te).map Prod.snd, arcs⟩,
                 some imk, none, false⟩ := by
        simp [dict_to_petrinet, decodeRequired, placesLookup,
          transitionsLookup, List.map_map] at harcsOk himk ⊢
        simp [harcsOk, himk, exceptBind_ok]
      exact ⟨_, hdec, rfl⟩
  · rintro rfl
    cases imf with
    | none =>
      simp [dict_to_petrinet, decodeRequired, placesLookup,
        transitionsLookup, List.map_map] at harcsOk ⊢
      simp [harcsOk, exceptBind_ok, exceptBind_error]
    | some m =>
      obtain ⟨imk, himk⟩ := himOk
      simp [dict_to_petrinet, decodeRequired, placesLookup,
        transitionsLookup, List.map_map] at harcsOk himk ⊢
      simp [harcsOk, himk, exceptBind_ok, exceptBind_error]

/-- C3 witness: with one place and a null initial marking, a null
`final_markings` decodes with no final marking, and the present empty list
fails with the index error. -/
theorem c3_empty_final_markings_witness :
    (∃ r, dict_to_petrinet ⟨some [("p1", ⟨"p1"⟩)], some [], some [],
        some none, some none⟩ = .ok r ∧ r.fm = none)
    ∧ dict_to_petrinet ⟨some [("p2", ⟨"p2"⟩)], some [], some [],
        some none, some (some [])⟩ = .error .IndexOutOfRange :=
  ⟨(c3_empty_final_markings _ [("p1", ⟨"p1"⟩)] [] [] none
      rfl rfl rfl (by simp) rfl trivial).1 rfl,
   (c3_empty_final_markings _ [("p2", ⟨"p2"⟩)] [] [] none
      rfl rfl rfl (by simp) rfl trivial).2 rfl⟩

/- Closed forms of the encode loops: the identity map and wire dictionaries
they build when no generated identifier repeats. -/

def pyidOfPlaces (gen : Nat → String) : Nat → List Place → List (Nat × String)
  | _, [] => []
  | c, p :: rest => (p.pid, gen c) :: pyidOfPlaces gen (c + 1) rest

def placesDictOf (gen : Nat → String) : Nat → List Place → List (String × PlaceEntry)
  | _, [] => []
  | c, _ :: rest => (gen c, ⟨gen c⟩) :: placesDictOf gen (c + 1) rest

def pyidOfTransitions (gen : Nat → String) : Nat → List Transition → List (Nat × String)
  | _, [] => []
  | c, t :: rest => (t.pid, gen c) :: pyidOfTransitions gen (c + 1) rest

def transDictOf (gen : Nat → String) : Nat → List Transition → List (String × TransitionEntry)
  | _, [] => []
  | c, t :: rest => (gen c, ⟨gen c, t.label⟩) :: transDictOf gen (c + 1) rest

lemma pyidOfPlaces_keys (gen : Nat → String) :
    ∀ (ps : List Place) (c : Nat),
    (pyidOfPlaces gen c ps).map Prod.fst = ps.map Place.pid := by
  intro ps
  induction ps with
  | nil => intro c; rfl
  | cons p rest ih => intro c; simp [pyidOfPlaces, ih (c + 1)]

lemma pyidOfTransitions_keys (gen : Nat → String) :
    ∀ (ts : List Transition) (c : Nat),
    (pyidOfTransitions gen c ts).map Prod.fst = ts.map Transition.pid := by
  intro ts
  induction ts with
  | nil => intro c; rfl
  | cons t rest ih => intro c; simp [pyidOfTransitions, ih (c + 1)]

lemma encodePlacesLoop_eq (gen : Nat → String) (hg : Function.Injective gen) :
    ∀ (ps : List Place) (c : Nat) (m : List (Nat × String))
      (d : List (String × PlaceEntry)),
    (∀ p ∈ ps, p.pid ∉ m.map Prod.fst) →
    (ps.map Place.pid).Nodup →
    (∀ i, c ≤ i → gen i ∉ d.map Prod.fst) →
    encodePlacesLoop gen ps (c, m, d)
      = (c + ps.length, m ++ pyidOfPlaces gen c ps,
         d ++ placesDictOf gen c ps) := by
  intro ps
  induction ps with
  | nil =>
    intro c m d _ _ _
    simp [encodePlacesLoop, pyidOfPlaces, placesDictOf]
  | cons p rest ih =>
    intro c m d hm hnodup hd
    have hmp : p.pid ∉ m.map Prod.fst := hm p (by simp)
    have hdc : gen c ∉ d.map Prod.fst := hd c le_rfl
    simp only [List.map_cons, List.nodup_cons] at hnodup
    have hstep : encodePlacesLoop gen (p :: rest) (c, m, d)
        = encodePlacesLoop gen rest
            (c + 1, m ++ [(p.pid, gen c)], d ++ [(gen c, ⟨gen c⟩)]) := by
      simp [encodePlacesLoop, dictInsert_of_not_mem _ hmp,
        dictInsert_of_not_mem _ hdc]
    rw [hstep, ih (c + 1) _ _ ?hm2 ?hn2 ?hd2]
    case hm2 =>
      intro p2 hp2
      simp only [List.map_append, List.mem_append]
      rintro (h2 | h2)
      · exact hm p2 (by simp [hp2]) h2
      · simp at h2
        exact hnodup.1 (by rw [← h2]; exact List.mem_map_of_mem Place.pid hp2)
    case hn2 => exact hnodup.2
    case hd2 =>
      intro i hi
      simp only [List.map_append, List.mem_append]
      rintro (h2 | h2)
      · exact hd i (by omega) h2
      · simp at h2
        have : i = c := hg h2
        omega
    simp [pyidOfPlaces, placesDictOf, List.append_assoc]
    omega

lemma encodeTransitionsLoop_eq (gen : Nat → String) (hg : Function.Injective gen) :
    ∀ (ts : List Transition) (c : Nat) (m : List (Nat × String))
      (d : List (String × TransitionEntry)),
    (∀ t ∈ ts, t.pid ∉ m.map Prod.fst) →
    (ts.map Transition.pid).Nodup →
    (∀ i, c ≤ i → gen i ∉ d.map Prod.fst) →
    encodeTransitionsLoop gen ts (c, m, d)
      = (c + ts.length, m ++ pyidOfTransitions gen c ts,
         d ++ transDictOf gen c ts) := by
  intro ts
  induction ts with
  | nil =>
    intro c m d _ _ _
    simp [encodeTransitionsLoop, pyidOfTransitions, transDictOf]
  | cons t rest ih =>
    intro c m d hm hnodup hd
    have hmt : t.pid ∉ m.map Prod.fst := hm t (by simp)
    have hdc : gen c ∉ d.map Prod.fst := hd c le_rfl
    simp only [List.map_cons, List.nodup_cons] at hnodup
    have hstep : encodeTransitionsLoop gen (t :: rest) (c, m, d)
        = encodeTransitionsLoop gen rest
            (c + 1, m ++ [(t.pid, gen c)], d ++ [(gen c, ⟨gen c, t.label⟩)]) := by
      simp [encodeTransitionsLoop, dictInsert_of_not_mem _ hmt,
        dictInsert_of_not_mem _ hdc]
    rw [hstep, ih (c + 1) _ _ ?hm2 ?hn2 ?hd2]
    case hm2 =>
      intro t2 ht2
      simp only [List.map_append, List.mem_append]
      rintro (h2 | h2)
      · exact hm t2 (by simp [ht2]) h2
      · simp at h2
        exact hnodup.1 (by rw [← h2]; exact List.mem_map_of_mem Transition.pid ht2)
    case hn2 => exact hnodup.2
    case hd2 =>
      intro i hi
      simp only [List.map_append, List.mem_append]
      rintro (h2 | h2)
      · exact hd i (by omega) h2
      · simp at h2
        have : i = c := hg h2
        omega
    simp [pyidOfTransitions, transDictOf, List.append_assoc]
    omega

lemma placesDictOf_length (gen : Nat → String) :
    ∀ (ps : List Place) (c : Nat), (placesDictOf gen c ps).length = ps.length := by
  intro ps
  induction ps with
  | nil => intro c; rfl
  | cons p rest ih => intro c; simp [placesDictOf, ih (c + 1)]

lemma transDictOf_length (gen : Nat → String) :
    ∀ (ts : List Transition) (c : Nat),
    (transDictOf gen c ts).length = ts.length := by
  intro ts
  induction ts with
  | nil => intro c; rfl
  | cons t rest ih => intro c; simp [transDictOf, ih (c + 1)]

lemma placesDictOf_keys (gen : Nat → String) :
    ∀ (ps : List Place) (c : Nat),
    (placesDictOf gen c ps).map Prod.fst
      = (List.range ps.length).map (fun i => gen (c + i)) := by
  intro ps
  induction ps with
  | nil => intro c; rfl
  | cons p rest ih =>
    intro c
    simp only [placesDictOf, List.map_cons, ih (c + 1), List.length_cons,
      List.range_succ_eq_map, List.map_map]
    refine congrArg (gen c :: ·) (List.map_congr_left ?_)
    intro i _
    simp [Function.comp]
    congr 1
    omega

lemma transDictOf_keys (gen : Nat → String) :
    ∀ (ts : List Transition) (c : Nat),
    (transDictOf gen c ts).map Prod.fst
      = (List.range ts.length).map (fun i => gen (c + i)) := by
  intro ts
  induction ts with
  | nil => intro c; rfl
  | cons t rest ih =>
    intro c
    simp only [transDictOf, List.map_cons, ih (c + 1), List.length_cons,
      List.range_succ_eq_map, List.map_map]
    refine congrArg (gen c :: ·) (List.map_congr_left ?_)
    intro i _
    simp [Function.comp]
    congr 1
    omega

lemma pyidOfPlaces_get (gen : Nat → String) :
    ∀ (ps : List Place) (c : Nat) (p : Place), p ∈ ps →
    (ps.map Place.pid).Nodup →
    ∃ i, i < ps.length
      ∧ dictGet (pyidOfPlaces gen c ps) p.pid = some (gen (c + i)) := by
  intro ps
  induction ps with
  | nil => intro c p hp; cases hp
  | cons q rest ih =>
    intro c p hp hnodup
    simp only [List.map_cons, List.nodup_cons] at hnodup
    rcases List.mem_cons.1 hp with rfl | hp2
    · exact ⟨0, by simp, by simp [pyidOfPlaces, dictGet]⟩
    · have hne : q.pid ≠ p.pid := by
        intro he
        exact hnodup.1 (he ▸ List.mem_map_of_mem Place.pid hp2)
      obtain ⟨i, hi, hget⟩ := ih (c + 1) p hp2 hnodup.2
      refine ⟨i + 1, by simp; omega, ?_⟩
      simp only [pyidOfPlaces, dictGet, if_neg hne]
      rw [show c + (i + 1) = c + 1 + i from by omega]
      exact hget

lemma pyidOfTransitions_get (gen : Nat → String) :
    ∀ (ts : List Transition) (c : Nat) (t : Transition), t ∈ ts →
    (ts.map Transition.pid).Nodup →
    ∃ j, j < ts.length
      ∧ dictGet (pyidOfTransitions gen c ts) t.pid = some (gen (c + j)) := by
  intro ts
  induction ts with
  | nil => intro c t ht; cases ht
  | cons q rest ih =>
    intro c t ht hnodup
    simp only [List.map_cons, List.nodup_cons] at hnodup
    rcases List.mem_cons.1 ht with rfl | ht2
    · exact ⟨0, by simp, by simp [pyidOfTransitions, dictGet]⟩
    · have hne : q.pid ≠ t.pid := by
        intro he
        exact hnodup.1 (he ▸ List.mem_map_of_mem Transition.pid ht2)
      obtain ⟨j, hj, hget⟩ := ih (c + 1) t ht2 hnodup.2
      refine ⟨j + 1, by simp; omega, ?_⟩
      simp only [pyidOfTransitions, dictGet, if_neg hne]
      rw [show c + (j + 1) = c + 1 + j from by omega]
      exact hget

/- The identifier map `pyid_to_uuid` as it stands after both encode loops,
when no generated identifier repeats. -/
def pyU (gen : Nat → String) (net : PetriNet) : List (Nat × String) :=
  pyidOfPlaces gen 0 net.places
    ++ pyidOfTransitions gen net.places.length net.transitions

/- The node is an instance owned by the net (`id(x)` is a key of
`pyid_to_uuid`). -/
def nodeInNet (net : PetriNet) : Node → Prop
  | .place p => p ∈ net.places
  | .transition t => t ∈ net.transitions

lemma pyU_get_place (gen : Nat → String) (net : PetriNet) {p : Place}
    (hp : p ∈ net.places)
    (hnodup : (net.places.map Place.pid
      ++ net.transitions.map Transition.pid).Nodup) :
    ∃ i, i < net.places.length
      ∧ dictGet (pyU gen net) p.pid = some (gen i) := by
  have hps : (net.places.map Place.pid).Nodup :=
    (List.nodup_append.1 hnodup).1
  obtain ⟨i, hi, hget⟩ := pyidOfPlaces_get gen net.places 0 p hp hps
  rw [Nat.zero_add] at hget
  exact ⟨i, hi, dictGet_append_left _ hget⟩

lemma pyU_get_transition (gen : Nat → String) (net : PetriNet)
    {t : Transition} (ht : t ∈ net.transitions)
    (hnodup : (net.places.map Place.pid
      ++ net.transitions.map Transition.pid).Nodup) :
    ∃ j, j < net.transitions.length
      ∧ dictGet (pyU gen net) t.pid = some (gen (net.places.length + j)) := by
  rcases List.nodup_append.1 hnodup with ⟨hps, hts, hdisj⟩
  have hnone : dictGet (pyidOfPlaces gen 0 net.places) t.pid = none := by
    rw [dictGet_none_iff, pyidOfPlaces_keys]
    intro hmem
    exact hdisj hmem (List.mem_map_of_mem Transition.pid ht)
  obtain ⟨j, hj, hget⟩ :=
    pyidOfTransitions_get gen net.transitions net.places.length t ht hts
  exact ⟨j, hj, by rw [pyU, dictGet_append_right _ hnone]; exact hget⟩

lemma nodeInNet_get {gen : Nat → String} {net : PetriNet} {nd : Node}
    (h : nodeInNet net nd)
    (hnodup : (net.places.map Place.pid
      ++ net.transitions.map Transition.pid).Nodup) :
    (dictGet (pyU gen net) nd.pid).isSome = true := by
  cases nd with
  | place p =>
    obtain ⟨i, _, hget⟩ := pyU_get_place gen net h hnodup
    simp [Node.pid, hget]
  | transition t =>
    obtain ⟨j, _, hget⟩ := pyU_get_transition gen net h hnodup
    simp [Node.pid, hget]

lemma encodeArcs_ok {m : List (Nat × String)} :
    ∀ {arcs : List Arc},
    (∀ a ∈ arcs, (dictGet m a.source.pid).isSome = true
      ∧ (dictGet m a.target.pid).isSome = true) →
    ∃ entries, encodeArcs m arcs = .ok entries := by
  intro arcs
  induction arcs with
  | nil => exact fun _ => ⟨[], rfl⟩
  | cons a rest ih =>
    intro h
    obtain ⟨hs, ht⟩ := h a (by simp)
    obtain ⟨s, hs2⟩ := Option.isSome_iff_exists.1 hs
    obtain ⟨t, ht2⟩ := Option.isSome_iff_exists.1 ht
    obtain ⟨entries, hrest⟩ := ih (fun a ha => h a (by simp [ha]))
    refine ⟨{ from_to := { type := if a.source.isPlace then "PlaceTransition"
                                   else "TransitionPlace",
                           nodes := (s, t) },
              weight := a.weight } :: entries, ?_⟩
    simp [encodeArcs, pyidLookup, hs2, ht2, hrest, exceptBind_ok]

lemma encodeMarking_ok {m : List (Nat × String)} :
    ∀ {mk : Marking},
    (∀ pn ∈ mk, (dictGet m (pn.1 : Place).pid).isSome = true) →
    ∀ acc, ∃ out, encodeMarking m mk acc = .ok out := by
  intro mk
  induction mk with
  | nil => exact fun _ acc => ⟨acc, rfl⟩
  | cons pn rest ih =>
    intro h acc
    obtain ⟨p, n⟩ := pn
    obtain ⟨s, hs⟩ := Option.isSome_iff_exists.1 (h (p, n) (by simp))
    obtain ⟨out, hout⟩ := ih (fun pn hpn => h pn (by simp [hpn]))
      (dictInsert acc s n)
    exact ⟨out, by simp [encodeMarking, pyidLookup, hs, hout, exceptBind_ok]⟩

lemma encodeFinalMarkings_ok {m : List (Nat × String)} :
    ∀ {fms : List Marking},
    (∀ mk ∈ fms, ∀ pn ∈ mk, (dictGet m (pn.1 : Place).pid).isSome = true) →
    ∃ outs, encodeFinalMarkings m fms = .ok outs
      ∧ outs.length = fms.length := by
  intro fms
  induction fms with
  | nil => exact fun _ => ⟨[], rfl, rfl⟩
  | cons mk rest ih =>
    intro h
    obtain ⟨out, hout⟩ := encodeMarking_ok (h mk (by simp)) []
    obtain ⟨outs, houts, hlen⟩ := ih (fun mk2 hmk2 => h mk2 (by simp [hmk2]))
    exact ⟨out :: outs, by
      simp [encodeFinalMarkings, hout, houts, exceptBind_ok], by simp [hlen]⟩

/- Master characterization of a successful encode call: with an injective
uuid stream and pairwise-distinct object identities, the wire dictionaries
are the closed forms above. -/
lemma petrinet_to_dict_ok (gen : Nat → String) (net : PetriNet)
    (im : Option Marking) (fms : Option (List Marking))
    (hg : Function.Injective gen)
    (hnodup : (net.places.map Place.pid
      ++ net.transitions.map Transition.pid).Nodup)
    (harcs : ∀ a ∈ net.arcs, nodeInNet net a.source ∧ nodeInNet net a.target)
    (him : ∀ mk, im = some mk → ∀ pn ∈ mk, (pn.1 : Place) ∈ net.places)
    (hfms : ∀ l, fms = some l →
      ∀ mk ∈ l, ∀ pn ∈ mk, (pn.1 : Place) ∈ net.places) :
    ∃ arcsE imE fmsE,
      petrinet_to_dict gen net im fms
        = .ok ⟨placesDictOf gen 0 net.places,
               transDictOf gen net.places.length net.transitions,
               arcsE, imE, fmsE⟩
      ∧ encodeArcs (pyU gen net) net.arcs = .ok arcsE
      ∧ (im = none → imE = none)
      ∧ (∀ mk, im = some mk →
          ∃ out, encodeMarking (pyU gen net) mk [] = .ok out
            ∧ imE = some out)
      ∧ (fms = none → fmsE = none)
      ∧ (∀ l, fms = some l →
          ∃ outs, encodeFinalMarkings (pyU gen net) l = .ok outs
            ∧ fmsE = some outs ∧ outs.length = l.length) := by
  rcases List.nodup_append.1 hnodup with ⟨hps, hts, hdisj⟩
  have hpst := encodePlacesLoop_eq gen hg net.places 0 [] []
    (by intro p _ h; cases h) hps (by intro i _ h; cases h)
  simp only [Nat.zero_add, List.nil_append] at hpst
  have htst := encodeTransitionsLoop_eq gen hg net.transitions
    net.places.length (pyidOfPlaces gen 0 net.places) []
    (by
      intro t ht hmem
      rw [pyidOfPlaces_keys] at hmem
      exact hdisj hmem (List.mem_map_of_mem Transition.pid ht))
    hts (by intro i _ h; cases h)
  simp only [List.nil_append] at htst
  have harcsSome : ∀ a ∈ net.arcs,
      (dictGet (pyU gen net) a.source.pid).isSome = true
      ∧ (dictGet (pyU gen net) a.target.pid).isSome = true := by
    intro a ha
    exact ⟨nodeInNet_get (harcs a ha).1 hnodup,
           nodeInNet_get (harcs a ha).2 hnodup⟩
  obtain ⟨arcsE, harcsE⟩ := encodeArcs_ok harcsSome
  have hmarkSome : ∀ (mk : Marking),
      (∀ pn ∈ mk, (pn.1 : Place) ∈ net.places) →
      ∀ pn ∈ mk, (dictGet (pyU gen net) (pn.1 : Place).pid).isSome = true := by
    intro mk hmk pn hpn
    obtain ⟨i, _, hget⟩ := pyU_get_place gen net (hmk pn hpn) hnodup
    simp [hget]
  cases im with
  | none =>
    cases fms with
    | none =>
      refine ⟨arcsE, none, none, ?_, harcsE, fun _ => rfl, ?_, fun _ => rfl, ?_⟩
      · simp only [pyU] at harcsE
        simp [petrinet_to_dict, hpst, htst, harcsE, exceptBind_ok]
      · intro mk h
        cases h
      · intro l h
        cases h
    | some l =>
      obtain ⟨outs, houts, hlen⟩ :=
        encodeFinalMarkings_ok (fun mk hmk => hmarkSome mk (hfms l rfl mk hmk))
      refine ⟨arcsE, none, some outs, ?_, harcsE, fun _ => rfl, ?_, ?_, ?_⟩
      · simp only [pyU] at harcsE houts
        simp [petrinet_to_dict, hpst, htst, harcsE, houts, exceptBind_ok]
      · intro mk h
        cases h
      · intro h
        cases h
      · intro l2 h
        cases h
        exact ⟨outs, houts, rfl, hlen⟩
  | some mk =>
    obtain ⟨out, hout⟩ := encodeMarking_ok (hmarkSome mk (him mk rfl)) []
    cases fms with
    | none =>
      refine ⟨arcsE, some out, none, ?_, harcsE, ?_, ?_, fun _ => rfl, ?_⟩
      · simp only [pyU] at harcsE hout
        simp [petrinet_to_dict, hpst, htst, harcsE, hout, exceptBind_ok]
      · intro h
        cases h
      · intro mk2 h
        cases h
        exact ⟨out, hout, rfl⟩
      · intro l h
        cases h
    | some l =>
      obtain ⟨outs, houts, hlen⟩ :=
        encodeFinalMarkings_ok
          (fun mk2 hmk2 => hmarkSome mk2 (hfms l rfl mk2 hmk2))
      refine ⟨arcsE, some out, some outs, ?_, harcsE, ?_, ?_, ?_, ?_⟩
      · simp only [pyU] at harcsE hout houts
        simp [petrinet_to_dict, hpst, htst, harcsE, hout, houts, exceptBind_ok]
      · intro h
        cases h
      · intro mk2 h
        cases h
        exact ⟨out, hout, rfl⟩
      · intro h
        cases h
      · intro l2 h
        cases h
        exact ⟨outs, houts, rfl, hlen⟩

lemma nodup_gen_ranges (gen : Nat → String) (hg : Function.Injective gen)
    (P T : Nat) :
    ((List.range P).map (fun i => gen (0 + i))
      ++ (List.range T).map (fun i => gen (P + i))).Nodup := by
  have h1 : ((List.range P).map (fun i => gen (0 + i))
      ++ (List.range T).map (fun i => gen (P + i)))
      = ((List.range P).map (fun i => 0 + i)
          ++ (List.range T).map (fun i => P + i)).map gen := by
    simp [List.map_append, List.map_map, Function.comp_def]
  rw [h1]
  refine List.Nodup.map hg ?_
  rw [List.nodup_append]
  refine ⟨?_, ?_, ?_⟩
  · simpa using List.nodup_range P
  · exact List.Nodup.map (fun a b h => by omega) (List.nodup_range T)
  · intro x hx hy
    simp only [List.mem_map, List.mem_range] at hx hy
    obtain ⟨i, hi, rfl⟩ := hx
    obtain ⟨j, _, hje⟩ := hy
    omega

/-- C2 counterexample: with an identifier stream that repeats (`"x"` every
time), encoding a net of two distinct places does not fail with any
identity-collision error; it silently returns a dictionary in which both
places collapsed onto the single identifier `"x"`. -/
theorem c2_counterexample :
    petrinet_to_dict (fun _ => "x")
        ⟨[⟨0, "a"⟩, ⟨1, "b"⟩], [], []⟩ none none
      = .ok ⟨[("x", ⟨"x"⟩)], [], [], none, none⟩ := rfl

/-- C2 (amended): the encoder performs no duplicate check and cannot fail
with an identity collision; a repeated generated identifier silently
overwrites the earlier dictionary entry.  Uniqueness holds exactly when the
uuid stream never repeats (injectivity, which `uuid.uuid4` provides only
statistically): then every distinct Place and Transition instance receives
exactly one identifier — one dictionary entry per instance — and no two
instances share one. -/
theorem c2_identifier_uniqueness (gen : Nat → String) (net : PetriNet)
    (hg : Function.Injective gen)
    (hnodup : (net.places.map Place.pid
      ++ net.transitions.map Transition.pid).Nodup)
    (harcs : ∀ a ∈ net.arcs, nodeInNet net a.source ∧ nodeInNet net a.target) :
    ∃ enc, petrinet_to_dict gen net none none = .ok enc
      ∧ enc.places.length = net.places.length
      ∧ enc.transitions.length = net.transitions.length
      ∧ ((enc.places.map Prod.fst) ++ (enc.transitions.map Prod.fst)).Nodup := by
  obtain ⟨arcsE, imE, fmsE, heq, -⟩ :=
    petrinet_to_dict_ok gen net none none hg hnodup harcs
      (fun mk h => by cases h) (fun l h => by cases h)
  refine ⟨_, heq, ?_, ?_, ?_⟩
  · simp [placesDictOf_length]
  · simp [transDictOf_length]
  · simp only [placesDictOf_keys, transDictOf_keys]
    exact nodup_gen_ranges gen hg net.places.length net.transitions.length

/-- C2 witness: an injective identifier stream on a net with two places and
one transition yields three pairwise-distinct identifiers, one per
instance. -/
theorem c2_identifier_uniqueness_witness :
    ∃ enc, petrinet_to_dict (fun i => ⟨List.replicate i 'a'⟩)
        ⟨[⟨0, "a"⟩, ⟨1, "b"⟩], [⟨2, "t", some "T"⟩], []⟩ none none
      = .ok enc
      ∧ enc.places.length = 2
      ∧ enc.transitions.length = 1
      ∧ ((enc.places.map Prod.fst) ++ (enc.transitions.map Prod.fst)).Nodup :=
  c2_identifier_uniqueness (fun i => ⟨List.replicate i 'a'⟩)
    ⟨[⟨0, "a"⟩, ⟨1, "b"⟩], [⟨2, "t", some "T"⟩], []⟩
    (fun a b h => by
      have h2 : List.replicate a 'a' = List.replicate b 'a' :=
        congrArg String.data h
      have h3 := congrArg List.length h2
      simpa using h3)
    (by decide) (by intro a ha; cases ha)

/- Closed forms of the decode-side lookup dictionaries when no entry id
repeats. -/

def placesLookupOf : Nat → List PlaceEntry → List (String × Place)
  | _, [] => []
  | c, e :: rest => (e.id, ⟨c, e.id⟩) :: placesLookupOf (c + 1) rest

def transLookupOf : Nat → List TransitionEntry → List (String × Transition)
  | _, [] => []
  | c, e :: rest => (e.id, ⟨c, e.id, e.label⟩) :: transLookupOf (c + 1) rest

lemma placesLookupOf_keys :
    ∀ (entries : List PlaceEntry) (c : Nat),
    (placesLookupOf c entries).map Prod.fst = entries.map PlaceEntry.id := by
  intro entries
  induction entries with
  | nil => intro c; rfl
  | cons e rest ih => intro c; simp [placesLookupOf, ih (c + 1)]

lemma transLookupOf_keys :
    ∀ (entries : List TransitionEntry) (c : Nat),
    (transLookupOf c entries).map Prod.fst = entries.map TransitionEntry.id := by
  intro entries
  induction entries with
  | nil => intro c; rfl
  | cons e rest ih => intro c; simp [transLookupOf, ih (c + 1)]

lemma placesLookupOf_length :
    ∀ (entries : List PlaceEntry) (c : Nat),
    (placesLookupOf c entries).length = entries.length := by
  intro entries
  induction entries with
  | nil => intro c; rfl
  | cons e rest ih => intro c; simp [placesLookupOf, ih (c + 1)]

lemma transLookupOf_labels :
    ∀ (entries : List TransitionEntry) (c : Nat),
    ((transLookupOf c entries).map Prod.snd).map Transition.label
      = entries.map TransitionEntry.label := by
  intro entries
  induction entries with
  | nil => intro c; rfl
  | cons e rest ih => intro c; simp [transLookupOf, ih (c + 1)]

lemma transDictOf_labels (gen : Nat → String) :
    ∀ (ts : List Transition) (c : Nat),
    ((transDictOf gen c ts).map Prod.snd).map TransitionEntry.label
      = ts.map Transition.label := by
  intro ts
  induction ts with
  | nil => intro c; rfl
  | cons t rest ih => intro c; simp [transDictOf, ih (c + 1)]

lemma placesDictOf_snd_ids (gen : Nat → String) :
    ∀ (ps : List Place) (c : Nat),
    ((placesDictOf gen c ps).map Prod.snd).map PlaceEntry.id
      = (placesDictOf gen c ps).map Prod.fst := by
  intro ps
  induction ps with
  | nil => intro c; rfl
  | cons p rest ih => intro c; simp [placesDictOf, ih (c + 1)]

lemma transDictOf_snd_ids (gen : Nat → String) :
    ∀ (ts : List Transition) (c : Nat),
    ((transDictOf gen c ts).map Prod.snd).map TransitionEntry.id
      = (transDictOf gen c ts).map Prod.fst := by
  intro ts
  induction ts with
  | nil => intro c; rfl
  | cons t rest ih => intro c; simp [transDictOf, ih (c + 1)]

lemma nodup_gen_range (gen : Nat → String) (hg : Function.Injective gen)
    (c n : Nat) : ((List.range n).map (fun i => gen (c + i))).Nodup :=
  List.Nodup.map (fun a b h => by have := hg h; omega) (List.nodup_range n)

lemma buildPlaces_eq :
    ∀ (entries : List PlaceEntry) (c : Nat) (acc : List (String × Place)),
    (entries.map PlaceEntry.id).Nodup →
    (∀ e ∈ entries, e.id ∉ acc.map Prod.fst) →
    buildPlaces c entries acc = acc ++ placesLookupOf c entries := by
  intro entries
  induction entries with
  | nil =>
    intro c acc _ _
    simp [buildPlaces, placesLookupOf]
  | cons e rest ih =>
    intro c acc hnodup hacc
    simp only [List.map_cons, List.nodup_cons] at hnodup
    have hstep : buildPlaces c (e :: rest) acc
        = buildPlaces (c + 1) rest (acc ++ [(e.id, ⟨c, e.id⟩)]) := by
      simp [buildPlaces, dictInsert_of_not_mem _ (hacc e (by simp))]
    rw [hstep, ih (c + 1) _ hnodup.2 ?hacc2]
    case hacc2 =>
      intro e2 he2
      simp only [List.map_append, List.mem_append]
      rintro (h2 | h2)
      · exact hacc e2 (by simp [he2]) h2
      · simp at h2
        exact hnodup.1 (by rw [← h2]; exact List.mem_map_of_mem PlaceEntry.id he2)
    simp [placesLookupOf, List.append_assoc]

lemma buildTransitions_eq :
    ∀ (entries : List TransitionEntry) (c : Nat)
      (acc : List (String × Transition)),
    (entries.map TransitionEntry.id).Nodup →
    (∀ e ∈ entries, e.id ∉ acc.map Prod.fst) →
    buildTransitions c entries acc = acc ++ transLookupOf c entries := by
  intro entries
  induction entries with
  | nil =>
    intro c acc _ _
    simp [buildTransitions, transLookupOf]
  | cons e rest ih =>
    intro c acc hnodup hacc
    simp only [List.map_cons, List.nodup_cons] at hnodup
    have hstep : buildTransitions c (e :: rest) acc
        = buildTransitions (c + 1) rest (acc ++ [(e.id, ⟨c, e.id, e.label⟩)]) := by
      simp [buildTransitions, dictInsert_of_not_mem _ (hacc e (by simp))]
    rw [hstep, ih (c + 1) _ hnodup.2 ?hacc2]
    case hacc2 =>
      intro e2 he2
      simp only [List.map_append, List.mem_append]
      rintro (h2 | h2)
      · exact hacc e2 (by simp [he2]) h2
      · simp at h2
        exact hnodup.1
          (by rw [← h2]; exact List.mem_map_of_mem TransitionEntry.id he2)
    simp [transLookupOf, List.append_assoc]

lemma dictInsert_keys_subset {κ α : Type} [DecidableEq κ]
    {d : List (κ × α)} {k0 k : κ} {v : α}
    (h : k ∈ (dictInsert d k0 v).map Prod.fst) :
    k ∈ d.map Prod.fst ∨ k = k0 := by
  unfold dictInsert at h
  split at h
  · simp only [List.map_map, Function.comp_def] at h
    rcases List.mem_map.1 h with ⟨kv, hkv, heq⟩
    by_cases he : kv.1 = k0
    · right
      rw [← heq, if_pos he]
    · left
      rw [← heq, if_neg he]
      exact List.mem_map_of_mem Prod.fst hkv
  · rw [List.map_append, List.mem_append] at h
    rcases h with h | h
    · exact Or.inl h
    · simp at h
      exact Or.inr h

lemma encodeMarking_keys {m : List (Nat × String)} :
    ∀ {mk : Marking} {acc out : List (String × Nat)},
    encodeMarking m mk acc = .ok out →
    ∀ k ∈ out.map Prod.fst, k ∈ acc.map Prod.fst
      ∨ ∃ pn ∈ mk, dictGet m (pn.1 : Place).pid = some k := by
  intro mk
  induction mk with
  | nil =>
    intro acc out h k hk
    simp only [encodeMarking] at h
    cases h
    exact Or.inl hk
  | cons pn rest ih =>
    intro acc out h k hk
    obtain ⟨p, n⟩ := pn
    rcases hs : dictGet m p.pid with _ | s
    · simp [encodeMarking, pyidLookup, hs, exceptBind_error] at h
    · rw [show encodeMarking m ((p, n) :: rest) acc
          = encodeMarking m rest (dictInsert acc s n) from by
            simp [encodeMarking, pyidLookup, hs, exceptBind_ok]] at h
      rcases ih h k hk with h2 | h2
      · rcases dictInsert_keys_subset h2 with h3 | h3
        · exact Or.inl h3
        · exact Or.inr ⟨(p, n), by simp, h3 ▸ hs⟩
      · obtain ⟨pn2, hpn2, hget⟩ := h2
        exact Or.inr ⟨pn2, by simp [hpn2], hget⟩

/- The arc has one Place endpoint and one Transition endpoint, both owned by
the net (the bipartite invariant of a Petri net). -/
def bipartiteInNet (net : PetriNet) (a : Arc) : Prop :=
  (∃ p t, a.source = Node.place p ∧ p ∈ net.places
    ∧ a.target = Node.transition t ∧ t ∈ net.transitions)
  ∨ (∃ t p, a.source = Node.transition t ∧ t ∈ net.transitions
    ∧ a.target = Node.place p ∧ p ∈ net.places)

lemma arcs_roundtrip {m : List (Nat × String)} {decP : List (String × Place)}
    {decT : List (String × Transition)} {net : PetriNet}
    (hP : ∀ p ∈ net.places, ∀ s, dictGet m (Place.pid p) = some s →
      (dictGet decP s).isSome = true)
    (hT : ∀ t ∈ net.transitions, ∀ s, dictGet m (Transition.pid t) = some s →
      (dictGet decT s).isSome = true) :
    ∀ (arcs : List Arc), (∀ a ∈ arcs, bipartiteInNet net a) →
    ∀ entries, encodeArcs m arcs = .ok entries →
    ∃ decArcs, buildArcs decP decT entries = .ok decArcs
      ∧ decArcs.map (fun a => (a.dirTag, a.weight))
        = arcs.map (fun a => (a.dirTag, a.weight)) := by
  intro arcs
  induction arcs with
  | nil =>
    intro _ entries h
    simp only [encodeArcs] at h
    cases h
    exact ⟨[], rfl, rfl⟩
  | cons a rest ih =>
    intro hbip entries h
    rcases hs : dictGet m a.source.pid with _ | s
    · simp [encodeArcs, pyidLookup, hs, exceptBind_error] at h
    rcases ht : dictGet m a.target.pid with _ | t
    · simp [encodeArcs, pyidLookup, hs, ht, exceptBind_ok,
        exceptBind_error] at h
    rcases hrest : encodeArcs m rest with e | entriesRest
    · simp [encodeArcs, pyidLookup, hs, ht, hrest, exceptBind_ok,
        exceptBind_error] at h
    have hcomp : encodeArcs m (a :: rest)
        = .ok ({ from_to := { type := if a.source.isPlace then "PlaceTransition"
                                      else "TransitionPlace",
                              nodes := (s, t) },
                 weight := a.weight } :: entriesRest) := by
      simp [encodeArcs, pyidLookup, hs, ht, hrest, exceptBind_ok]
    rw [hcomp] at h
    cases h
    obtain ⟨decRest, hdecRest, hmapRest⟩ :=
      ih (fun a2 ha2 => hbip a2 (by simp [ha2])) entriesRest hrest
    rcases hbip a (by simp) with
      ⟨p, tt, hsrc, hpmem, htgt, htmem⟩ | ⟨tt, p, hsrc, htmem, htgt, hpmem⟩
    · rw [hsrc] at hs
      rw [htgt] at ht
      simp only [Node.pid] at hs ht
      obtain ⟨pp, hpp⟩ := Option.isSome_iff_exists.1 (hP p hpmem s hs)
      obtain ⟨ttv, httv⟩ := Option.isSome_iff_exists.1 (hT tt htmem t ht)
      have htag : a.source.isPlace = true := by rw [hsrc]; rfl
      have hhead : get_arc_for decP decT
          { from_to := { type := if a.source.isPlace then "PlaceTransition"
                                 else "TransitionPlace",
                         nodes := (s, t) },
            weight := a.weight }
          = .ok ⟨.place pp, .transition ttv, a.weight⟩ := by
        simp [get_arc_for, htag, hpp, httv]
      refine ⟨⟨.place pp, .transition ttv, a.weight⟩ :: decRest, ?_, ?_⟩
      · simp [buildArcs, hhead, hdecRest, exceptBind_ok]
      · simp only [List.map_cons]
        rw [hmapRest]
        congr 1
        simp [Arc.dirTag, Node.isPlace, hsrc]
    · rw [hsrc] at hs
      rw [htgt] at ht
      simp only [Node.pid] at hs ht
      obtain ⟨ttv, httv⟩ := Option.isSome_iff_exists.1 (hT tt htmem s hs)
      obtain ⟨pp, hpp⟩ := Option.isSome_iff_exists.1 (hP p hpmem t ht)
      have htag : a.source.isPlace = false := by rw [hsrc]; rfl
      have hhead : get_arc_for decP decT
          { from_to := { type := if a.source.isPlace then "PlaceTransition"
                                 else "TransitionPlace",
                         nodes := (s, t) },
            weight := a.weight }
          = .ok ⟨.transition ttv, .place pp, a.weight⟩ := by
        simp only [get_arc_for, htag, if_false, Bool.false_eq_true]
        have hne : ("TransitionPlace" : String) ≠ "PlaceTransition" := by decide
        simp [hne, httv, hpp]
      refine ⟨⟨.transition ttv, .place pp, a.weight⟩ :: decRest, ?_, ?_⟩
      · simp [buildArcs, hhead, hdecRest, exceptBind_ok]
      · simp only [List.map_cons]
        rw [hmapRest]
        congr 1
        simp [Arc.dirTag, Node.isPlace, hsrc]

lemma encodeFinalMarkings_mem {m : List (Nat × String)} :
    ∀ {fms : List Marking} {outs : List (List (String × Nat))},
    encodeFinalMarkings m fms = .ok outs →
    ∀ o ∈ outs, ∃ mk ∈ fms, encodeMarking m mk [] = .ok o := by
  intro fms
  induction fms with
  | nil =>
    intro outs h o ho
    simp only [encodeFinalMarkings] at h
    cases h
    cases ho
  | cons mk rest ih =>
    intro outs h o ho
    rcases hmk : encodeMarking m mk [] with e | out
    · simp [encodeFinalMarkings, hmk, exceptBind_error] at h
    rcases hrest : encodeFinalMarkings m rest with e | outsRest
    · simp [encodeFinalMarkings, hmk, hrest, exceptBind_ok,
        exceptBind_error] at h
    have hcomp : encodeFinalMarkings m (mk :: rest) = .ok (out :: outsRest) := by
      simp [encodeFinalMarkings, hmk, hrest, exceptBind_ok]
    rw [hcomp] at h
    cases h
    rcases List.mem_cons.1 ho with rfl | ho2
    · exact ⟨mk, by simp, hmk⟩
    · obtain ⟨mk2, hmk2, hout2⟩ := ih hrest o ho2
      exact ⟨mk2, by simp [hmk2], hout2⟩

/- Decoding succeeds once every stage of the dictionary resolves, and the
reconstructed net consists of the lookup values and the decoded arcs. -/
lemma dict_to_petrinet_net (pe : List (String × PlaceEntry))
    (te : List (String × TransitionEntry)) (ae : List ArcEntry)
    (imE : Option (List (String × Nat)))
    (fmsE : Option (List (List (String × Nat)))) (decArcs : List Arc)
    (hArcs : buildArcs (buildPlaces 0 (pe.map Prod.snd) [])
        (buildTransitions pe.length (te.map Prod.snd) []) ae = .ok decArcs)
    (hImOk : imStageOk (buildPlaces 0 (pe.map Prod.snd) []) imE)
    (hFmOk : fmStageOk (buildPlaces 0 (pe.map Prod.snd) []) fmsE) :
    ∃ r, dict_to_petrinet ⟨some pe, some te, some ae, some imE, some fmsE⟩
        = .ok r
      ∧ r.net = ⟨(buildPlaces 0 (pe.map Prod.snd) []).map Prod.snd,
                 (buildTransitions pe.length (te.map Prod.snd) []).map Prod.snd,
                 decArcs⟩ := by
  cases imE with
  | none =>
    cases fmsE with
    | none =>
      refine ⟨⟨⟨(buildPlaces 0 (pe.map Prod.snd) []).map Prod.snd,
          (buildTransitions pe.length (te.map Prod.snd) []).map Prod.snd,
          decArcs⟩, none, none, false⟩, ?_, rfl⟩
      simp [dict_to_petrinet, decodeRequired, hArcs, exceptBind_ok]
    | some fms =>
      cases fms with
      | nil => exact (hFmOk : False).elim
      | cons first rest =>
        obtain ⟨fmk, hfmk⟩ :=
          (hFmOk : ∃ mk, buildMarking (buildPlaces 0 (pe.map Prod.snd) [])
            first [] = .ok mk)
        refine ⟨⟨⟨(buildPlaces 0 (pe.map Prod.snd) []).map Prod.snd,
            (buildTransitions pe.length (te.map Prod.snd) []).map Prod.snd,
            decArcs⟩, none, some fmk, decide ((first :: rest).length > 1)⟩,
          ?_, rfl⟩
        simp [dict_to_petrinet, decodeRequired, hArcs, hfmk, exceptBind_ok]
  | some m =>
    obtain ⟨imk, himk⟩ :=
      (hImOk : ∃ mk, buildMarking (buildPlaces 0 (pe.map Prod.snd) [])
        m [] = .ok mk)
    cases fmsE with
    | none =>
      refine ⟨⟨⟨(buildPlaces 0 (pe.map Prod.snd) []).map Prod.snd,
          (buildTransitions pe.length (te.map Prod.snd) []).map Prod.snd,
          decArcs⟩, some imk, none, false⟩, ?_, rfl⟩
      simp [dict_to_petrinet, decodeRequired, hArcs, himk, exceptBind_ok]
    | some fms =>
      cases fms with
      | nil => exact (hFmOk : False).elim
      | cons first rest =>
        obtain ⟨fmk, hfmk⟩ :=
          (hFmOk : ∃ mk, buildMarking (buildPlaces 0 (pe.map Prod.snd) [])
            first [] = .ok mk)
        refine ⟨⟨⟨(buildPlaces 0 (pe.map Prod.snd) []).map Prod.snd,
            (buildTransitions pe.length (te.map Prod.snd) []).map Prod.snd,
            decArcs⟩, some imk, some fmk,
            decide ((first :: rest).length > 1)⟩, ?_, rfl⟩
        simp [dict_to_petrinet, decodeRequired, hArcs, himk, hfmk,
          exceptBind_ok]

/-- C1 (amended): for every Petri net (distinct node instances, bipartite
arcs within the net) with optional initial marking and optional final-marking
sequence whose keys reference places of the net, provided the uuid stream of
the encode call never repeats and the final-marking sequence, when present,
is non-empty, decoding the dictionary produced by encoding yields a net
isomorphic to the original: the same number of places, the same multiset of
transition labels, and the same multiset of arcs by (direction tag, weight)
up to relabeling of the synthetic identifiers. -/
theorem c1_petrinet_roundtrip (gen : Nat → String) (net : PetriNet)
    (im : Option Marking) (fms : Option (List Marking))
    (hg : Function.Injective gen)
    (hnodup : (net.places.map Place.pid
      ++ net.transitions.map Transition.pid).Nodup)
    (hbip : ∀ a ∈ net.arcs, bipartiteInNet net a)
    (him : ∀ mk, im = some mk → ∀ pn ∈ mk, (pn.1 : Place) ∈ net.places)
    (hfms : ∀ l, fms = some l →
      l ≠ [] ∧ ∀ mk ∈ l, ∀ pn ∈ mk, (pn.1 : Place) ∈ net.places) :
    ∃ enc r, petrinet_to_dict gen net im fms = .ok enc
      ∧ dict_to_petrinet enc.toNetDict = .ok r
      ∧ r.net.places.length = net.places.length
      ∧ (↑(r.net.transitions.map Transition.label) : Multiset (Option String))
        = ↑(net.transitions.map Transition.label)
      ∧ (↑(r.net.arcs.map (fun a => (a.dirTag, a.weight)))
          : Multiset (String × Nat))
        = ↑(net.arcs.map (fun a => (a.dirTag, a.weight))) := by
  have harcsNode : ∀ a ∈ net.arcs,
      nodeInNet net a.source ∧ nodeInNet net a.target := by
    intro a ha
    rcases hbip a ha with ⟨p, t, hsrc, hp, htgt, ht⟩
      | ⟨t, p, hsrc, ht, htgt, hp⟩
    · exact ⟨by rw [hsrc]; exact hp, by rw [htgt]; exact ht⟩
    · exact ⟨by rw [hsrc]; exact ht, by rw [htgt]; exact hp⟩
  obtain ⟨arcsE, imE, fmsE, hEnc, hArcsE, hImNone, hImSome, hFmsNone,
    hFmsSome⟩ :=
    petrinet_to_dict_ok gen net im fms hg hnodup harcsNode him
      (fun l h => (hfms l h).2)
  have hpids : (((placesDictOf gen 0 net.places).map Prod.snd).map
      PlaceEntry.id).Nodup := by
    rw [placesDictOf_snd_ids, placesDictOf_keys]
    exact nodup_gen_range gen hg 0 net.places.length
  have htids : (((transDictOf gen net.places.length net.transitions).map
      Prod.snd).map TransitionEntry.id).Nodup := by
    rw [transDictOf_snd_ids, transDictOf_keys]
    exact nodup_gen_range gen hg net.places.length net.transitions.length
  have hdecP : buildPlaces 0 ((placesDictOf gen 0 net.places).map Prod.snd) []
      = placesLookupOf 0 ((placesDictOf gen 0 net.places).map Prod.snd) :=
    (buildPlaces_eq _ 0 [] hpids (by intro e he h; cases h)).trans
      (List.nil_append _)
  have hdecT : buildTransitions (placesDictOf gen 0 net.places).length
      ((transDictOf gen net.places.length net.transitions).map Prod.snd) []
      = transLookupOf (placesDictOf gen 0 net.places).length
        ((transDictOf gen net.places.length net.transitions).map Prod.snd) :=
    (buildTransitions_eq _ _ [] htids (by intro e he h; cases h)).trans
      (List.nil_append _)
  have hkeyP : ∀ i, i < net.places.length →
      (dictGet (buildPlaces 0
        ((placesDictOf gen 0 net.places).map Prod.snd) []) (gen i)).isSome
        = true := by
    intro i hi
    rw [hdecP, dictGet_isSome_iff, placesLookupOf_keys, placesDictOf_snd_ids,
      placesDictOf_keys]
    exact List.mem_map.2 ⟨i, List.mem_range.2 hi, by simp⟩
  have hkeyT : ∀ j, j < net.transitions.length →
      (dictGet (buildTransitions (placesDictOf gen 0 net.places).length
        ((transDictOf gen net.places.length net.transitions).map Prod.snd) [])
        (gen (net.places.length + j))).isSome = true := by
    intro j hj
    rw [hdecT, dictGet_isSome_iff, transLookupOf_keys, transDictOf_snd_ids,
      transDictOf_keys]
    exact List.mem_map.2 ⟨j, List.mem_range.2 hj, rfl⟩
  have hP : ∀ p ∈ net.places, ∀ s,
      dictGet (pyU gen net) (Place.pid p) = some s →
      (dictGet (buildPlaces 0
        ((placesDictOf gen 0 net.places).map Prod.snd) []) s).isSome
        = true := by
    intro p hp s hs
    obtain ⟨i, hi, hget⟩ := pyU_get_place gen net hp hnodup
    rw [hget] at hs
    cases hs
    exact hkeyP i hi
  have hT : ∀ t ∈ net.transitions, ∀ s,
      dictGet (pyU gen net) (Transition.pid t) = some s →
      (dictGet (buildTransitions (placesDictOf gen 0 net.places).length
        ((transDictOf gen net.places.length net.transitions).map Prod.snd) [])
        s).isSome = true := by
    intro t ht s hs
    obtain ⟨j, hj, hget⟩ := pyU_get_transition gen net ht hnodup
    rw [hget] at hs
    cases hs
    exact hkeyT j hj
  obtain ⟨decArcs, hDecArcs, hMapArcs⟩ :=
    arcs_roundtrip hP hT net.arcs hbip arcsE hArcsE
  have hImOk : imStageOk (buildPlaces 0
      ((placesDictOf gen 0 net.places).map Prod.snd) []) imE := by
    cases im with
    | none =>
      rw [hImNone rfl]
      trivial
    | some mk =>
      obtain ⟨out, hout, himE⟩ := hImSome mk rfl
      rw [himE]
      show ∃ mk2, buildMarking _ out [] = .ok mk2
      apply buildMarking_ok
      intro kn hkn
      rcases encodeMarking_keys hout kn.1
          (List.mem_map_of_mem Prod.fst hkn) with h0 | ⟨pn, hpn, hget⟩
      · cases h0
      · exact hP pn.1 (him mk rfl pn hpn) kn.1 hget
  have hFmOk : fmStageOk (buildPlaces 0
      ((placesDictOf gen 0 net.places).map Prod.snd) []) fmsE := by
    cases fms with
    | none =>
      rw [hFmsNone rfl]
      trivial
    | some l =>
      obtain ⟨outs, houts, hfmsE, hlen⟩ := hFmsSome l rfl
      rw [hfmsE]
      obtain ⟨hlne, hkeys⟩ := hfms l rfl
      cases outs with
      | nil =>
        have hle : l = [] := List.length_eq_zero.mp (by simpa using hlen.symm)
        exact absurd hle hlne
      | cons o1 orest =>
        show ∃ mk, buildMarking _ o1 [] = .ok mk
        apply buildMarking_ok
        intro kn hkn
        obtain ⟨mk1, hmk1, hencm⟩ := encodeFinalMarkings_mem houts o1 (by simp)
        rcases encodeMarking_keys hencm kn.1
            (List.mem_map_of_mem Prod.fst hkn) with h0 | ⟨pn, hpn, hget⟩
        · cases h0
        · exact hP pn.1 (hkeys mk1 hmk1 pn hpn) kn.1 hget
  obtain ⟨r, hDec, hNet⟩ := dict_to_petrinet_net
    (placesDictOf gen 0 net.places)
    (transDictOf gen net.places.length net.transitions)
    arcsE imE fmsE decArcs hDecArcs hImOk hFmOk
  refine ⟨_, r, hEnc, hDec, ?_, ?_, ?_⟩
  · rw [hNet]
    show ((buildPlaces 0
      ((placesDictOf gen 0 net.places).map Prod.snd) []).map Prod.snd).length
      = net.places.length
    rw [hdecP, List.length_map, placesLookupOf_length, List.length_map,
      placesDictOf_length]
  · rw [hNet]
    show (↑(((buildTransitions (placesDictOf gen 0 net.places).length
        ((transDictOf gen net.places.length net.transitions).map Prod.snd)
        []).map Prod.snd).map Transition.label) : Multiset (Option String))
      = ↑(net.transitions.map Transition.label)
    rw [hdecT, transLookupOf_labels, transDictOf_labels]
  · rw [hNet]
    show (↑(decArcs.map (fun a => (a.dirTag, a.weight)))
        : Multiset (String × Nat))
      = ↑(net.arcs.map (fun a => (a.dirTag, a.weight)))
    rw [hMapArcs]

/-- C1 counterexample: a one-place net with the (vacuously key-valid) empty
final-marking sequence encodes successfully, but decoding the produced
dictionary fails with the index error on `final_markings[0]`, so no
isomorphic net is obtained. -/
theorem c1_counterexample :
    petrinet_to_dict (fun _ => "u") ⟨[⟨0, "p"⟩], [], []⟩ none (some [])
      = .ok ⟨[("u", ⟨"u"⟩)], [], [], none, some []⟩
    ∧ dict_to_petrinet
        (EncDict.toNetDict ⟨[("u", ⟨"u"⟩)], [], [], none, some []⟩)
      = .error .IndexOutOfRange :=
  ⟨rfl, rfl⟩

/-- C1 witness: the round trip at a concrete net with one place, one
labelled transition, one weighted arc, an initial marking and one final
marking. -/
theorem c1_petrinet_roundtrip_witness :
    ∃ enc r, petrinet_to_dict (fun i => ⟨List.replicate (i + 1) 'u'⟩)
        ⟨[⟨0, "p"⟩], [⟨1, "t", some "A"⟩],
         [⟨.place ⟨0, "p"⟩, .transition ⟨1, "t", some "A"⟩, 2⟩]⟩
        (some [(⟨0, "p"⟩, 1)]) (some [[(⟨0, "p"⟩, 3)]])
      = .ok enc
      ∧ dict_to_petrinet enc.toNetDict = .ok r
      ∧ r.net.places.length = 1
      ∧ (↑(r.net.transitions.map Transition.label) : Multiset (Option String))
        = ↑([some "A"])
      ∧ (↑(r.net.arcs.map (fun a => (a.dirTag, a.weight)))
          : Multiset (String × Nat))
        = ↑([("PlaceTransition", 2)]) :=
  c1_petrinet_roundtrip (fun i => ⟨List.replicate (i + 1) 'u'⟩)
    ⟨[⟨0, "p"⟩], [⟨1, "t", some "A"⟩],
     [⟨.place ⟨0, "p"⟩, .transition ⟨1, "t", some "A"⟩, 2⟩]⟩
    (some [(⟨0, "p"⟩, 1)]) (some [[(⟨0, "p"⟩, 3)]])
    (fun a b h => by
      have h2 : List.replicate (a + 1) 'u' = List.replicate (b + 1) 'u' :=
        congrArg String.data h
      have h3 := congrArg List.length h2
      simp at h3
      exact h3)
    (by decide)
    (by
      intro a ha
      simp at ha
      subst ha
      exact Or.inl ⟨⟨0, "p"⟩, ⟨1, "t", some "A"⟩, rfl, by simp, rfl, by simp⟩)
    (by
      intro mk h pn hpn
      cases h
      simp at hpn
      subst hpn
      simp)
    (by
      intro l h
      cases h
      refine ⟨by simp, ?_⟩
      intro mk hmk pn hpn
      simp at hmk
      subst hmk
      simp at hpn
      subst hpn
      simp)

end RustBridgePM
